import Mathlib

/-!
Shallow embedding of the `big_num_math` crate (`src/lib.rs`): an
arbitrary-precision, non-negative decimal integer arithmetic core.
Rows of decimal places are modelled as `List Nat`, least significant
digit first, exactly as the crate stores them in a `Vec<u8>`.  All
machine-integer arithmetic in the source stays within `u8` range on the
inputs the crate admits, so plain `Nat` arithmetic is a faithful model;
the range facts themselves are proved below.
-/

namespace BigNum

/-- Relation enumeration, as in the source. -/
inductive Rel where
  | Greater
  | Equal
  | Lesser
deriving DecidableEq

/-- `PlacesRow` represents a row of decimal places starting at ones (index 0). -/
structure PlacesRow where
  row : List Nat
deriving DecidableEq

/-- Digit-carry primitive `ones`: adds `takeover` to `num`, returns the ones
digit of the total and the new takeover (the tens-and-above part), exactly
as the source computes them. -/
def ones (num takeover : Nat) : Nat × Nat :=
  let total := num + takeover
  (total - total / 10 * 10, total / 10)

/-- `truncate_leading_raw`: drops the trailing (most-significant) run of
places equal to `lead`, keeping at least one place of a non-empty row. -/
def truncate_leading_raw (row : List Nat) (lead : Nat) : List Nat :=
  let trun := (row.reverse.takeWhile (fun num => num == lead)).length
  let trun' := if row.length = trun then trun - 1 else trun
  row.take (row.length - trun')

/-- `shrink_to_fit_raw`: removes trailing zero places (capacity shrinking has
no observable counterpart in the model). -/
def shrink_to_fit_raw (row : List Nat) : List Nat :=
  truncate_leading_raw row 0

/-- The digit row built by `new_from_num`: repeatedly split off `num % 10`
until the remaining quotient is zero (a do-while loop, so `0` gives `[0]`). -/
def new_from_num_row (num : Nat) : List Nat :=
  if h : num / 10 = 0 then [num % 10]
  else num % 10 :: new_from_num_row (num / 10)
termination_by num
decreasing_by
  refine Nat.div_lt_self ?_ (by norm_num)
  rcases Nat.eq_zero_or_pos num with h0 | h0
  · exact absurd (by simp [h0]) h
  · exact h0

/-- Ctor `new_from_num`. -/
def new_from_num (num : Nat) : PlacesRow :=
  ⟨new_from_num_row num⟩

/-- Ctor `new_from_vec`: rejects an empty row and any place greater than 9
(reporting its index), then truncates leading zeros. -/
def new_from_vec (row : List Nat) : Except (Option Nat) PlacesRow :=
  if row.length = 0 then .error none
  else
    match row.findIdx? (fun num => decide (9 < num)) with
    | some inx => .error (some inx)
    | none => .ok ⟨truncate_leading_raw row 0⟩

/-- Conversion used by `new_from_str` for an ASCII digit (`to_digit(10)`). -/
def charToPlace (c : Char) : Nat :=
  c.toNat - 48

/-- The char loop of `new_from_str`: consumes the trimmed string reversed
(so places come out ones first), `inx` counting down from the original
length; a non-digit aborts with its index in the original string. -/
def fromCharsRev : List Char → Nat → Except (Option Nat) (List Nat)
  | [], _ => .ok []
  | c :: cs, inx =>
    if c.isDigit then
      match fromCharsRev cs (inx - 1) with
      | .ok rest => .ok (charToPlace c :: rest)
      | .error e => .error e
    else .error (some (inx - 1))

/-- Ctor `new_from_str`: rejects the empty string, trims leading zero
characters (an all-zero string becomes the row `[0]`), then converts the
remaining characters ones first. -/
def new_from_str (s : List Char) : Except (Option Nat) PlacesRow :=
  if s.length = 0 then .error none
  else
    let t := s.dropWhile (fun c => c == '0')
    if t.length = 0 then .ok ⟨[0]⟩
    else
      match fromCharsRev t.reverse s.length with
      | .ok row => .ok ⟨row⟩
      | .error e => .error e

/-- The digit-to-character match of `to_number`; the wildcard arm panics in
the source, modelled as `none`. -/
def placeChar (num : Nat) : Option Char :=
  match num with
  | 0 => some '0'
  | 1 => some '1'
  | 2 => some '2'
  | 3 => some '3'
  | 4 => some '4'
  | 5 => some '5'
  | 6 => some '6'
  | 7 => some '7'
  | 8 => some '8'
  | 9 => some '9'
  | _ => none

/-- The character loop of `to_number`, consuming places most significant
first. -/
def toNumberRev : List Nat → Option (List Char)
  | [] => some []
  | num :: rest =>
    match placeChar num, toNumberRev rest with
    | some c, some cs => some (c :: cs)
    | _, _ => none

/-- `to_number`: renders a row most significant digit first; `none` models
the `panic!` on a place greater than 9. -/
def to_number (row : List Nat) : Option (List Char) :=
  toNumberRev row.reverse

/-- `PlacesRow::zero()`. -/
def zero : PlacesRow :=
  ⟨[0]⟩

/-- The digit loop of `rel`: compares two rows of equal length most
significant digit first (the rows are passed reversed). -/
def cmpPlaces : List Nat → List Nat → Rel
  | a :: xs, b :: ys =>
    if a > b then .Greater
    else if a < b then .Lesser
    else cmpPlaces xs ys
  | _, _ => .Equal

/-- `rel`: three-way magnitude comparison, lengths first, then digits from
the most significant position down. -/
def rel (num comparand : PlacesRow) : Rel :=
  let r1 := num.row
  let r2 := comparand.row
  if r1.length > r2.length then .Greater
  else if r1.length = r2.length then cmpPlaces r1.reverse r2.reverse
  else .Lesser

/-- A single write of the addition loop: overwrite the place at `inx` when
it exists, push at the end otherwise (`sum.get_mut(inx)` vs `sum.push`). -/
def writeAt (sum : List Nat) (inx d : Nat) : List Nat :=
  if inx < sum.length then sum.set inx d else sum ++ [d]

/-- The tail of the `addition` loop once `addend_1` is exhausted: keeps
running while a takeover remains, reading the second addend through the
snapshot taken at entry (`addend_2_ptr`). -/
def additionCarry (snapshot : List Nat) (snapLen : Nat) (sum : List Nat) (inx takeover : Nat) :
    List Nat :=
  if h : takeover = 0 then sum
  else
    let num2 := if inx < snapLen then snapshot.getD inx 0 else 0
    let o := ones num2 takeover
    additionCarry snapshot snapLen (writeAt sum inx o.1) (inx + 1) o.2
termination_by (snapLen - inx, takeover)
decreasing_by
  by_cases hlt : inx < snapLen
  · exact Prod.Lex.left _ _ (by omega)
  · have h2 : snapLen - (inx + 1) = snapLen - inx := by omega
    rw [h2]
    refine Prod.Lex.right _ ?_
    have hnum : num2 = 0 := by simp [num2, hlt]
    have ho : o.2 = takeover / 10 := by simp [o, hnum, ones]
    rw [ho]
    omega

/-- The main `addition` loop while `addend_1` still has places: each step
reads the second addend through the entry snapshot, splits the place total
with `ones` and writes it at `inx`. -/
def additionMain (addend1 snapshot : List Nat) (snapLen : Nat) (sum : List Nat)
    (inx takeover : Nat) : List Nat :=
  match addend1 with
  | [] => additionCarry snapshot snapLen sum inx takeover
  | num1 :: rest =>
    let num2 := if inx < snapLen then snapshot.getD inx 0 else 0
    let o := ones (num2 + num1) takeover
    additionMain rest snapshot snapLen (writeAt sum inx o.1) (inx + 1) o.2

/-- `addition`: adds `addend1` into `sum` at `offset`; the second addend is
either the explicit `addend2` or the contents of `sum` itself at entry
(the raw-pointer snapshot of the source). The takeover starts at 0. -/
def addition (addend1 : List Nat) (addend2 : Option (List Nat)) (sum : List Nat)
    (offset : Nat) : List Nat :=
  match addend2 with
  | some a2 => additionMain addend1 a2 a2.length sum offset 0
  | none => additionMain addend1 sum sum.length sum offset 0

/-- `add`: picks the longer row as `addend_1` and column-adds into a fresh
accumulator. -/
def add (addend1 addend2 : PlacesRow) : PlacesRow :=
  let r1 := addend1.row
  let r2 := addend2.row
  let p := if r1.length > r2.length then (r1, r2) else (r2, r1)
  ⟨addition p.1 (some p.2) [] 0⟩

/-- The loop of `product`: multiplies each place by `mpler`, threading the
takeover, and pushes a final non-zero takeover. -/
def productLoop (mpler : Nat) : List Nat → Nat → List Nat
  | [], takeover => if takeover ≠ 0 then [takeover] else []
  | num :: rest, takeover =>
    let o := ones (mpler * num) takeover
    o.1 :: productLoop mpler rest o.2

/-- `product`: single-digit multiplication of a row (the scaled product);
the output buffer is empty at every call site. -/
def product (mpler : Nat) (mcand : List Nat) : List Nat :=
  productLoop mpler mcand 0

/-- The offset loop of `mulmul`: for each place of the multiplier, fold the
scaled product into the intermediate sum at that offset. -/
def muladdGo (mcand : List Nat) : List Nat → Nat → List Nat → List Nat
  | [], _, i_sum => i_sum
  | mnum :: rest, offset, i_sum =>
    muladdGo mcand rest (offset + 1) (addition (product mnum mcand) none i_sum offset)

/-- The outer counter loop of `mulmul`: runs the offset loop `times` times,
swapping the intermediate sum into the multiplicand between iterations;
`times = 0` behaves as one pass (the source is never called with 0). -/
def mulmulLoop (mpler : List Nat) : Nat → List Nat → List Nat
  | 0, mcand => muladdGo mcand mpler 0 []
  | 1, mcand => muladdGo mcand mpler 0 []
  | times + 2, mcand => mulmulLoop mpler (times + 1) (muladdGo mcand mpler 0 [])

/-- `mulmul`: shared multiplication/power engine; shrinks the final
accumulator. -/
def mulmul (row1 row2 : List Nat) (times : Nat) : PlacesRow :=
  ⟨shrink_to_fit_raw (mulmulLoop row1 times row2)⟩

/-- `mul`. -/
def mul (factor1 factor2 : PlacesRow) : PlacesRow :=
  mulmul factor1.row factor2.row 1

/-- `pow`: exponent 0 gives `[1]`, exponent 1 clones the base, otherwise it
enters the engine with `times = power - 1`. -/
def pow (base : PlacesRow) (power : Nat) : PlacesRow :=
  if power = 0 then ⟨[1]⟩
  else if power = 1 then ⟨base.row⟩
  else mulmul base.row base.row (power - 1)

/-- One pass of the `substraction` while-loop over the minuend places: the
borrow-guarded per-place subtraction.  When the subtrahend is exhausted,
the takeover is 0 and the pass reads an already populated difference, the
source breaks early, leaving the remaining places unchanged. -/
def subPass (populated : Bool) : List Nat → List Nat → Nat → List Nat × Nat
  | [], _, takeover => ([], takeover)
  | mnum :: mrest, srow, takeover =>
    if srow.isEmpty && takeover == 0 && populated then (mnum :: mrest, takeover)
    else
      let snum := srow.headD 0
      let total := snum + takeover
      let step := if mnum < total then (mnum + 10 - total, 1) else (mnum - total, 0)
      let r := subPass populated mrest srow.tail step.2
      (step.1 :: r.1, r.2)

/-- The overrun-correction pass of `substraction`: re-adds the subtrahend
places to the partial difference with carry propagation over the first
`subtrahend.length` places; the final carry is dropped.  (The source
indexes `diffrem[inx]`, which panics when the subtrahend is longer than
the difference; that case is modelled as `[]` and is unreachable from the
public operations.) -/
def corrLoop : List Nat → List Nat → Nat → List Nat
  | drow, [], _ => drow
  | [], _ :: _, _ => []
  | dnum :: drest, snum :: srest, takeover =>
    let o := ones (dnum + snum) takeover
    o.1 :: corrLoop drest srest o.2

/-- Spec-side denotation of a row: the number it represents (ones first). -/
def valRow : List Nat → Nat
  | [] => 0
  | d :: rest => d + 10 * valRow rest

/-- The outer loop of `substraction` after the first pass, with explicit
fuel (the source loops until the overrun correction fires; the wrapper
passes fuel exceeding the worst-case pass count for a non-zero
subtrahend). Each successful pass increments the ratio row via `addition`. -/
def substractionLoop (subtrahend : List Nat) (remainder : Bool) :
    Nat → List Nat → List Nat → List Nat × List Nat
  | 0, diffrem, rat => (diffrem, rat)
  | fuel + 1, diffrem, rat =>
    let p := subPass true diffrem subtrahend 0
    if p.2 = 1 then
      (truncate_leading_raw (corrLoop p.1 subtrahend 0) 9, rat)
    else
      let rat' := addition [1] none rat 0
      if remainder then substractionLoop subtrahend remainder fuel p.1 rat'
      else (p.1, rat')

/-- `substraction`: first pass reads the minuend; on overrun it corrects and
truncates trailing nines, otherwise it increments the ratio and (in
remainder mode) keeps subtracting in place.  The final difference is
shrunk.  Fuel `valRow minuend + 1` strictly exceeds the pass count
whenever the subtrahend is non-zero (the source diverges on a zero
subtrahend in remainder mode, which `divrem` guards against). -/
def substraction (minuend subtrahend : List Nat) (remainder : Bool) :
    List Nat × List Nat :=
  let p := subPass false minuend subtrahend 0
  let dr :=
    if p.2 = 1 then
      (truncate_leading_raw (corrLoop p.1 subtrahend 0) 9, ([0] : List Nat))
    else
      let rat' := addition [1] none [0] 0
      if remainder then substractionLoop subtrahend remainder (valRow minuend + 1) p.1 rat'
      else (p.1, rat')
  (shrink_to_fit_raw dr.1, dr.2)

/-- `sub`: `None` for a lesser minuend, zero row for equal rows, otherwise a
single guarded difference. -/
def sub (minuend subtrahend : PlacesRow) : Option PlacesRow :=
  let r := rel minuend subtrahend
  if r = Rel.Lesser then none
  else if r = Rel.Equal then some ⟨[0]⟩
  else some ⟨(substraction minuend.row subtrahend.row false).1⟩

/-- `divrem`: `None` on a zero divisor; comparator shortcuts for lesser and
equal dividends; otherwise the remainder loop of `substraction`. -/
def divrem (dividend divisor : PlacesRow) : Option (PlacesRow × PlacesRow) :=
  if divisor = zero then none
  else
    let r := rel dividend divisor
    if r = Rel.Lesser then some (zero, dividend)
    else if r = Rel.Equal then some (⟨[1]⟩, zero)
    else
      let remratio := substraction dividend.row divisor.row true
      some (⟨remratio.2⟩, ⟨remratio.1⟩)

/-! ### List-level mirrors of the addition loop (used by the bridges) -/

/-- List-level form of the carry tail of `addition` in self-addend mode:
remaining snapshot places are consumed one by one and the rest is kept
once the takeover dies out. -/
def carryInto (s : List Nat) (takeover : Nat) : List Nat :=
  if _h : takeover = 0 then s
  else
    match s with
    | [] => (ones 0 takeover).1 :: carryInto [] (ones 0 takeover).2
    | x :: xs => (ones x takeover).1 :: carryInto xs (ones x takeover).2
termination_by (s.length, takeover)
decreasing_by
  · refine Prod.Lex.right _ ?_
    have h2 : (ones 0 takeover).2 = takeover / 10 := by simp [ones]
    rw [h2]
    omega
  · exact Prod.Lex.left _ _ (by simp)

/-- List-level form of the main loop of `addition` in self-addend mode. -/
def addInto : List Nat → List Nat → Nat → List Nat
  | [], s, takeover => carryInto s takeover
  | d :: ds, s, takeover =>
    (ones (s.headD 0 + d) takeover).1 :: addInto ds s.tail (ones (s.headD 0 + d) takeover).2

/-- List-level form of the carry tail of `addition` in two-addend mode:
whatever the snapshot still holds is dropped once the takeover dies out
(those places were never copied into the separate output). -/
def carryTwo (s : List Nat) (takeover : Nat) : List Nat :=
  if _h : takeover = 0 then []
  else
    match s with
    | [] => (ones 0 takeover).1 :: carryTwo [] (ones 0 takeover).2
    | x :: xs => (ones x takeover).1 :: carryTwo xs (ones x takeover).2
termination_by (s.length, takeover)
decreasing_by
  · refine Prod.Lex.right _ ?_
    have h2 : (ones 0 takeover).2 = takeover / 10 := by simp [ones]
    rw [h2]
    omega
  · exact Prod.Lex.left _ _ (by simp)

/-- List-level form of the main loop of `addition` in two-addend mode. -/
def addTwo : List Nat → List Nat → Nat → List Nat
  | [], s, takeover => carryTwo s takeover
  | d :: ds, s, takeover =>
    (ones (s.headD 0 + d) takeover).1 :: addTwo ds s.tail (ones (s.headD 0 + d) takeover).2

/-- Value of a row written most significant digit first. -/
def valM : List Nat → Nat
  | [] => 0
  | d :: rest => d * 10 ^ rest.length + valM rest

/-! ### Spec-side rendering and carry instrumentation -/

/-- Decimal rendering of a natural number, following the spec's words ("the
decimal text of n"); written with Mathlib's base-10 digits, most significant
first. -/
def decRender (n : Nat) : List Char :=
  if n = 0 then ['0'] else ((Nat.digits 10 n).map Nat.digitChar).reverse

/-- Instrumentation of the carry tail of `addition`: the `(num, takeover)`
argument pairs of every `ones` call it makes (the loop reads the second
addend only through the snapshot, never the accumulator). -/
def additionCarryCalls (snapshot : List Nat) (snapLen : Nat) (inx takeover : Nat) :
    List (Nat × Nat) :=
  if h : takeover = 0 then []
  else
    let num2 := if inx < snapLen then snapshot.getD inx 0 else 0
    (num2, takeover) :: additionCarryCalls snapshot snapLen (inx + 1) (ones num2 takeover).2
termination_by (snapLen - inx, takeover)
decreasing_by
  by_cases hlt : inx < snapLen
  · exact Prod.Lex.left _ _ (by omega)
  · have h2 : snapLen - (inx + 1) = snapLen - inx := by omega
    rw [h2]
    refine Prod.Lex.right _ ?_
    have hnum : num2 = 0 := by simp [num2, hlt]
    have ho : (ones num2 takeover).2 = takeover / 10 := by simp [hnum, ones]
    rw [ho]
    omega

/-- Instrumentation of the main loop of `addition`: the `(num, takeover)`
argument pairs of every `ones` call of a full run. -/
def additionMainCalls (addend1 snapshot : List Nat) (snapLen : Nat) (inx takeover : Nat) :
    List (Nat × Nat) :=
  match addend1 with
  | [] => additionCarryCalls snapshot snapLen inx takeover
  | num1 :: rest =>
    let num2 := if inx < snapLen then snapshot.getD inx 0 else 0
    (num2 + num1, takeover) ::
      additionMainCalls rest snapshot snapLen (inx + 1) (ones (num2 + num1) takeover).2

/-- Instrumentation of `addition`: mirrors its mode choice and its takeover
starting at 0. -/
def additionCalls (addend1 : List Nat) (addend2 : Option (List Nat)) (sum : List Nat)
    (offset : Nat) : List (Nat × Nat) :=
  match addend2 with
  | some a2 => additionMainCalls addend1 a2 a2.length offset 0
  | none => additionMainCalls addend1 sum sum.length offset 0

/-- Instrumentation of the `product` loop: the `(num, takeover)` argument
pairs of its `ones` calls. -/
def productLoopCalls (mpler : Nat) : List Nat → Nat → List (Nat × Nat)
  | [], _ => []
  | num :: rest, takeover =>
    (mpler * num, takeover) :: productLoopCalls mpler rest (ones (mpler * num) takeover).2

/-- Instrumentation of `product`: the takeover starts at 0. -/
def productCalls (mpler : Nat) (mcand : List Nat) : List (Nat × Nat) :=
  productLoopCalls mpler mcand 0

/-- Instrumentation of the overrun-correction pass of `substraction`. -/
def corrLoopCalls : List Nat → List Nat → Nat → List (Nat × Nat)
  | _, [], _ => []
  | [], _ :: _, _ => []
  | dnum :: drest, snum :: srest, takeover =>
    (dnum + snum, takeover) :: corrLoopCalls drest srest (ones (dnum + snum) takeover).2

/-- Instrumentation of a `substraction` pass: for every executed per-place
step, the minuend place, the subtrahend place read, and the takeover
(borrow) it was entered with. -/
def subPassSteps (populated : Bool) : List Nat → List Nat → Nat → List (Nat × Nat × Nat)
  | [], _, _ => []
  | mnum :: mrest, srow, takeover =>
    if srow.isEmpty && takeover == 0 && populated then []
    else
      let snum := srow.headD 0
      let total := snum + takeover
      let step := if mnum < total then (mnum + 10 - total, 1) else (mnum - total, 0)
      (mnum, snum, takeover) :: subPassSteps populated mrest srow.tail step.2

/-! ### Semantic layer: row denotation and validity -/

/-- A row is valid when it is non-empty, every place is a decimal digit, and
it carries no most-significant zero except for the zero row `[0]` itself. -/
def ValidRow (r : List Nat) : Prop :=
  r ≠ [] ∧ (∀ d ∈ r, d ≤ 9) ∧ (r.getLast? = some 0 → r = [0])

instance : DecidablePred ValidRow := fun r => by
  unfold ValidRow; infer_instance

theorem ones_eq (num takeover : Nat) :
    ones num takeover = ((num + takeover) % 10, (num + takeover) / 10) := by
  unfold ones
  rw [Prod.mk.injEq]
  refine ⟨by omega, rfl⟩

theorem valRow_append (xs ys : List Nat) :
    valRow (xs ++ ys) = valRow xs + 10 ^ xs.length * valRow ys := by
  induction xs with
  | nil => simp [valRow]
  | cons d rest ih =>
    have h1 : (d :: rest) ++ ys = d :: (rest ++ ys) := rfl
    have h2 : valRow (d :: (rest ++ ys)) = d + 10 * valRow (rest ++ ys) := rfl
    have h3 : valRow (d :: rest) = d + 10 * valRow rest := rfl
    rw [h1, h2, h3, ih, List.length_cons, pow_succ]
    ring

theorem valRow_lt (r : List Nat) (h : ∀ d ∈ r, d ≤ 9) :
    valRow r < 10 ^ r.length := by
  induction r with
  | nil => simp [valRow]
  | cons d rest ih =>
    have hd : d ≤ 9 := h d (by simp)
    have hr : valRow rest < 10 ^ rest.length := ih (fun x hx => h x (by simp [hx]))
    simp only [valRow, List.length_cons, pow_succ]
    omega

theorem valRow_eq_zero_iff (r : List Nat) : valRow r = 0 ↔ ∀ d ∈ r, d = 0 := by
  induction r with
  | nil => simp [valRow]
  | cons d rest ih =>
    simp only [valRow, List.mem_cons]
    constructor
    · intro h
      have hd : d = 0 := by omega
      have hr : valRow rest = 0 := by omega
      intro x hx
      rcases hx with hx | hx
      · exact hx ▸ hd
      · exact ih.mp hr x hx
    · intro h
      have hd : d = 0 := h d (Or.inl rfl)
      have hr : valRow rest = 0 := ih.mpr (fun x hx => h x (Or.inr hx))
      simp [hd, hr]

theorem valRow_ge_of_getLast (r : List Nat) (x : Nat) (h : r.getLast? = some x) :
    x * 10 ^ (r.length - 1) ≤ valRow r := by
  induction r with
  | nil => simp at h
  | cons d rest ih =>
    cases rest with
    | nil =>
      simp only [List.getLast?_singleton, Option.some.injEq] at h
      simp [valRow, h]
    | cons e tail =>
      have h2 : (e :: tail).getLast? = some x := by rwa [List.getLast?_cons_cons] at h
      have hle := ih h2
      simp only [List.length_cons, Nat.add_sub_cancel] at hle ⊢
      have hstep : x * 10 ^ (tail.length + 1) = 10 * (x * 10 ^ tail.length) := by ring
      rw [hstep]
      have h10 : 10 * (x * 10 ^ tail.length) ≤ 10 * valRow (e :: tail) :=
        Nat.mul_le_mul_left 10 hle
      have hv : valRow (d :: e :: tail) = d + 10 * valRow (e :: tail) := rfl
      omega

/-- A valid row other than `[0]` denotes a value of full place width. -/
theorem valid_ge_pow (r : List Nat) (hv : ValidRow r) (hne : r ≠ [0]) :
    10 ^ (r.length - 1) ≤ valRow r := by
  obtain ⟨h0, _, hlast⟩ := hv
  obtain ⟨x, hx⟩ := List.getLast?_isSome.mpr h0 |> Option.isSome_iff_exists.mp
  have hx1 : 1 ≤ x := by
    rcases Nat.eq_zero_or_pos x with h | h
    · exact absurd (hlast (h ▸ hx)) hne
    · exact h
  calc 10 ^ (r.length - 1) = 1 * 10 ^ (r.length - 1) := by ring
    _ ≤ x * 10 ^ (r.length - 1) := by
        exact Nat.mul_le_mul_right _ hx1
    _ ≤ valRow r := valRow_ge_of_getLast r x hx

/-- Unfolding equation for `new_from_num_row`. -/
theorem new_from_num_row_eq (num : Nat) :
    new_from_num_row num =
      if num / 10 = 0 then [num % 10] else num % 10 :: new_from_num_row (num / 10) := by
  rw [new_from_num_row]
  by_cases h : num / 10 = 0 <;> simp [h]

theorem valRow_new_from_num_row (num : Nat) : valRow (new_from_num_row num) = num := by
  induction num using Nat.strong_induction_on with
  | _ num ih =>
    rw [new_from_num_row_eq]
    by_cases h : num / 10 = 0
    · simp only [h, if_pos]
      simp [valRow]
      omega
    · simp only [h, if_neg, valRow]
      rw [ih (num / 10) (Nat.div_lt_self (by omega) (by norm_num))]
      omega

theorem new_from_num_row_digits (num : Nat) : ∀ d ∈ new_from_num_row num, d ≤ 9 := by
  induction num using Nat.strong_induction_on with
  | _ num ih =>
    rw [new_from_num_row_eq]
    by_cases h : num / 10 = 0
    · rw [if_pos h]
      intro d hd
      rw [List.mem_singleton] at hd
      omega
    · rw [if_neg h]
      intro d hd
      rw [List.mem_cons] at hd
      rcases hd with hd | hd
      · omega
      · exact ih (num / 10) (Nat.div_lt_self (by omega) (by norm_num)) d hd

theorem new_from_num_row_ne_nil (num : Nat) : new_from_num_row num ≠ [] := by
  rw [new_from_num_row_eq]
  by_cases h : num / 10 = 0 <;> simp [h]

theorem new_from_num_row_getLast (num : Nat) (h1 : 1 ≤ num) :
    new_from_num_row num ≠ [0] ∧ (new_from_num_row num).getLast? ≠ some 0 := by
  induction num using Nat.strong_induction_on with
  | _ num ih =>
    rw [new_from_num_row_eq]
    by_cases h : num / 10 = 0
    · rw [if_pos h]
      constructor
      · simp only [ne_eq, List.cons.injEq, and_true]
        omega
      · simp only [List.getLast?_singleton, ne_eq, Option.some.injEq]
        omega
    · have hlt : num / 10 < num := Nat.div_lt_self (by omega) (by norm_num)
      have hrec := ih (num / 10) hlt (by omega)
      rw [if_neg h]
      have hne := new_from_num_row_ne_nil (num / 10)
      constructor
      · intro hcontra
        rw [List.cons.injEq] at hcontra
        exact hne hcontra.2
      · cases he : new_from_num_row (num / 10) with
        | nil => exact absurd he hne
        | cons x xs =>
          rw [List.getLast?_cons_cons]
          rw [he] at hrec
          exact hrec.2

theorem valid_new_from_num_row (num : Nat) : ValidRow (new_from_num_row num) := by
  refine ⟨new_from_num_row_ne_nil num, new_from_num_row_digits num, ?_⟩
  intro hlast
  rcases Nat.eq_zero_or_pos num with h0 | h0
  · subst h0
    rw [new_from_num_row_eq]
    norm_num
  · exact absurd hlast (new_from_num_row_getLast num h0).2

/-- Two digit rows of the same length with the same value are equal. -/
theorem rows_eq_of_val_of_len : ∀ (r r' : List Nat), (∀ d ∈ r, d ≤ 9) →
    (∀ d ∈ r', d ≤ 9) → r.length = r'.length → valRow r = valRow r' → r = r'
  | [], [], _, _, _, _ => rfl
  | [], _ :: _, _, _, hlen, _ => by simp at hlen
  | _ :: _, [], _, _, hlen, _ => by simp at hlen
  | d :: rest, e :: tail, h, h', hlen, hval => by
    simp only [valRow] at hval
    have hd : d ≤ 9 := h d (by simp)
    have he : e ≤ 9 := h' e (by simp)
    have hde : d = e := by omega
    have hrest : valRow rest = valRow tail := by omega
    have hrec := rows_eq_of_val_of_len rest tail (fun x hx => h x (by simp [hx]))
      (fun x hx => h' x (by simp [hx])) (by simpa using hlen) hrest
    rw [hde, hrec]

theorem valid_tail (d : Nat) (t : List Nat) (hv : ValidRow (d :: t)) (ht : t ≠ []) :
    ValidRow t := by
  obtain ⟨e, tail, rfl⟩ := List.exists_cons_of_ne_nil ht
  obtain ⟨_, hdig, hlast⟩ := hv
  refine ⟨by simp, fun x hx => hdig x (by simp [hx]), ?_⟩
  intro hl
  have hgl : (d :: e :: tail).getLast? = some 0 := by
    rw [List.getLast?_cons_cons]
    exact hl
  exact absurd (hlast hgl) (by simp)

/-- Every valid row is the canonical digit row of its value. -/
theorem canonical_of_valid (r : List Nat) (hv : ValidRow r) :
    new_from_num_row (valRow r) = r := by
  induction r with
  | nil => exact absurd rfl hv.1
  | cons d t ih =>
    have hd : d ≤ 9 := hv.2.1 d (by simp)
    cases t with
    | nil =>
      have hv0 : valRow [d] = d := by simp [valRow]
      rw [hv0, new_from_num_row_eq]
      have h0 : d / 10 = 0 := by omega
      rw [if_pos h0]
      have : d % 10 = d := by omega
      rw [this]
    | cons e tail =>
      have hvt : ValidRow (e :: tail) := valid_tail d (e :: tail) hv (by simp)
      have hne : (e :: tail) ≠ [0] := by
        intro hcontra
        have hgl : (d :: e :: tail).getLast? = some 0 := by
          rw [List.getLast?_cons_cons, hcontra]
          rfl
        have h2 := hv.2.2 hgl
        simp at h2
      have hpos : 1 ≤ valRow (e :: tail) := by
        rcases Nat.eq_zero_or_pos (valRow (e :: tail)) with h0 | h0
        · have hall := (valRow_eq_zero_iff (e :: tail)).mp h0
          obtain ⟨x, hx⟩ := Option.isSome_iff_exists.mp
            (List.getLast?_isSome.mpr (by simp : (e :: tail) ≠ ([] : List Nat)))
          obtain ⟨hne2, hx2⟩ := List.mem_getLast?_eq_getLast (Option.mem_def.mpr hx)
          have hx0 := hall x (hx2 ▸ List.getLast_mem hne2)
          rw [hx0] at hx
          exact absurd (hvt.2.2 hx) hne
        · exact h0
      have hv1 : valRow (d :: e :: tail) = d + 10 * valRow (e :: tail) := rfl
      rw [hv1, new_from_num_row_eq]
      have hdiv : (d + 10 * valRow (e :: tail)) / 10 = valRow (e :: tail) := by omega
      have hmod : (d + 10 * valRow (e :: tail)) % 10 = d := by omega
      have hnz : ¬((d + 10 * valRow (e :: tail)) / 10 = 0) := by omega
      rw [if_neg hnz, hmod, hdiv, ih hvt]

/-! ### List-level semantics of the addition loop -/

theorem carryInto_zero (s : List Nat) : carryInto s 0 = s := by
  rw [carryInto.eq_def]
  simp

theorem carryInto_nil (t : Nat) (h : t ≠ 0) :
    carryInto [] t = (ones 0 t).1 :: carryInto [] (ones 0 t).2 := by
  rw [carryInto.eq_def]
  simp [h]

theorem carryInto_cons (x : Nat) (xs : List Nat) (t : Nat) (h : t ≠ 0) :
    carryInto (x :: xs) t = (ones x t).1 :: carryInto xs (ones x t).2 := by
  rw [carryInto.eq_def]
  simp [h]

theorem carryTwo_zero (s : List Nat) : carryTwo s 0 = [] := by
  rw [carryTwo.eq_def]
  simp

theorem carryTwo_nil (t : Nat) (h : t ≠ 0) :
    carryTwo [] t = (ones 0 t).1 :: carryTwo [] (ones 0 t).2 := by
  rw [carryTwo.eq_def]
  simp [h]

theorem carryTwo_cons (x : Nat) (xs : List Nat) (t : Nat) (h : t ≠ 0) :
    carryTwo (x :: xs) t = (ones x t).1 :: carryTwo xs (ones x t).2 := by
  rw [carryTwo.eq_def]
  simp [h]

/-! ### Write-state lemmas for the index-based addition loop -/

theorem writeAt_take (sum : List Nat) (inx v : Nat) (h : inx ≤ sum.length) :
    (writeAt sum inx v).take (inx + 1) = sum.take inx ++ [v] := by
  unfold writeAt
  by_cases hlt : inx < sum.length
  · rw [if_pos hlt, List.set_eq_take_cons_drop v hlt]
    have hl : (sum.take inx).length = inx := by
      rw [List.length_take]
      omega
    rw [List.take_append_eq_append_take, hl]
    rw [List.take_of_length_le (show (sum.take inx).length ≤ inx + 1 by omega)]
    have h1 : inx + 1 - inx = 1 := by omega
    rw [h1]
    rfl
  · have hEq : inx = sum.length := by omega
    rw [if_neg hlt]
    rw [List.take_of_length_le (show (sum ++ [v]).length ≤ inx + 1 by simp [hEq])]
    rw [List.take_of_length_le (show sum.length ≤ inx by omega)]

theorem writeAt_take_prefix (sum : List Nat) (inx v : Nat) (h : inx ≤ sum.length) :
    (writeAt sum inx v).take inx = sum.take inx := by
  unfold writeAt
  by_cases hlt : inx < sum.length
  · rw [if_pos hlt, List.set_eq_take_cons_drop v hlt]
    have hl : (sum.take inx).length = inx := by
      rw [List.length_take]
      omega
    rw [List.take_left' hl]
  · have hEq : inx = sum.length := by omega
    rw [if_neg hlt, hEq, List.take_left]
    exact (List.take_of_length_le (le_refl _)).symm

theorem writeAt_drop (sum : List Nat) (inx v : Nat) :
    (writeAt sum inx v).drop (inx + 1) = sum.drop (inx + 1) := by
  unfold writeAt
  by_cases hlt : inx < sum.length
  · rw [if_pos hlt, List.drop_set, if_pos (by omega)]
  · rw [if_neg hlt, List.drop_eq_nil_of_le (by simp; omega),
      List.drop_eq_nil_of_le (by omega)]

theorem writeAt_length (sum : List Nat) (inx v : Nat) (h : inx ≤ sum.length) :
    (writeAt sum inx v).length = max sum.length (inx + 1) := by
  unfold writeAt
  by_cases hlt : inx < sum.length
  · rw [if_pos hlt, List.length_set]
    omega
  · rw [if_neg hlt, List.length_append]
    simp
    omega

theorem writeAt_beyond (sum : List Nat) (inx v : Nat) (h : ¬inx < sum.length) :
    writeAt sum inx v = sum ++ [v] := by
  unfold writeAt
  rw [if_neg h]

/-! ### Bridges from the index-based loops to the list-level semantics -/

theorem additionCarry_stop (snapshot : List Nat) (snapLen : Nat) (sum : List Nat) (inx : Nat) :
    additionCarry snapshot snapLen sum inx 0 = sum := by
  rw [additionCarry.eq_def]
  simp

theorem additionCarry_succ (snapshot : List Nat) (snapLen : Nat) (sum : List Nat)
    (inx t : Nat) (h : t ≠ 0) :
    additionCarry snapshot snapLen sum inx t =
      additionCarry snapshot snapLen
        (writeAt sum inx (ones (if inx < snapLen then snapshot.getD inx 0 else 0) t).1)
        (inx + 1) (ones (if inx < snapLen then snapshot.getD inx 0 else 0) t).2 := by
  rw [additionCarry.eq_def]
  rw [dif_neg h]

theorem getD_eq_head_drop (l : List Nat) (inx : Nat) :
    (if inx < l.length then l.getD inx 0 else 0) = (l.drop inx).headD 0 := by
  by_cases hlt : inx < l.length
  · rw [if_pos hlt, List.drop_eq_getElem_cons hlt]
    simp [List.getD_eq_getElem?_getD, List.getElem?_eq_getElem hlt]
  · rw [if_neg hlt, List.drop_eq_nil_of_le (by omega)]
    rfl

theorem tail_drop_eq (l : List Nat) (inx : Nat) :
    (l.drop inx).tail = l.drop (inx + 1) := by
  rw [← List.drop_one, List.drop_drop, Nat.add_comm]

theorem drop_succ_of_drop (sum snapshot : List Nat) (inx : Nat)
    (h3 : sum.drop inx = snapshot.drop inx) :
    sum.drop (inx + 1) = snapshot.drop (inx + 1) := by
  have h := congrArg List.tail h3
  rwa [tail_drop_eq, tail_drop_eq] at h

theorem ones_snd_zero_lt (t : Nat) (ht : t ≠ 0) : (ones 0 t).2 < t := by
  have ho : (ones 0 t).2 = t / 10 := by simp [ones]
  rw [ho]
  omega

/-- Carry-tail bridge once the reading index has passed the snapshot: every
write is a push and the emitted places are the digits of the takeover. -/
theorem additionCarry_bridge_after (snapshot : List Nat) (t : Nat) :
    ∀ (sum : List Nat) (inx : Nat), snapshot.length ≤ inx → inx ≤ sum.length →
    sum.length = max snapshot.length inx →
    additionCarry snapshot snapshot.length sum inx t =
      sum.take inx ++ carryInto [] t := by
  induction t using Nat.strong_induction_on with
  | _ t ih =>
    intro sum inx hge h1 h2
    have hsl : sum.length = inx := by omega
    by_cases ht : t = 0
    · subst ht
      rw [additionCarry_stop, carryInto_zero, List.append_nil,
        List.take_of_length_le (by omega)]
    · rw [additionCarry_succ _ _ _ _ _ ht]
      have hx : (if inx < snapshot.length then snapshot.getD inx 0 else 0) = 0 :=
        if_neg (by omega)
      rw [hx, writeAt_beyond _ _ _ (by omega)]
      rw [ih (ones 0 t).2 (ones_snd_zero_lt t ht) _ (inx + 1) (by omega)
        (by simp; omega) (by simp; omega)]
      rw [carryInto_nil _ ht]
      rw [List.take_of_length_le (by simp; omega), List.take_of_length_le (by omega)]
      simp

/-- Carry-tail bridge in the aligned regime (`inx` within the accumulator). -/
theorem additionCarry_bridge (snapshot : List Nat) :
    ∀ (k : Nat) (sum : List Nat) (inx t : Nat), snapshot.length - inx = k →
    inx ≤ sum.length → sum.length = max snapshot.length inx →
    sum.drop inx = snapshot.drop inx →
    additionCarry snapshot snapshot.length sum inx t =
      sum.take inx ++ carryInto (snapshot.drop inx) t := by
  intro k
  induction k with
  | zero =>
    intro sum inx t hk h1 h2 h3
    have hge : snapshot.length ≤ inx := by omega
    have hd : snapshot.drop inx = [] := List.drop_eq_nil_of_le hge
    rw [hd]
    exact additionCarry_bridge_after snapshot t sum inx hge h1 h2
  | succ k ihk =>
    intro sum inx t hk h1 h2 h3
    have hin : inx < snapshot.length := by omega
    by_cases ht : t = 0
    · subst ht
      rw [additionCarry_stop, carryInto_zero, ← h3]
      exact (List.take_append_drop inx sum).symm
    · rw [additionCarry_succ _ _ _ _ _ ht]
      have hx : (if inx < snapshot.length then snapshot.getD inx 0 else 0) = snapshot[inx] := by
        rw [if_pos hin]
        simp [List.getD_eq_getElem?_getD, List.getElem?_eq_getElem hin]
      rw [hx]
      have inv1 : inx + 1 ≤ (writeAt sum inx (ones snapshot[inx] t).1).length := by
        rw [writeAt_length _ _ _ h1]
        omega
      have inv2 : (writeAt sum inx (ones snapshot[inx] t).1).length =
          max snapshot.length (inx + 1) := by
        rw [writeAt_length _ _ _ h1]
        omega
      have inv3 : (writeAt sum inx (ones snapshot[inx] t).1).drop (inx + 1) =
          snapshot.drop (inx + 1) := by
        rw [writeAt_drop]
        exact drop_succ_of_drop sum snapshot inx h3
      rw [ihk _ (inx + 1) _ (by omega) inv1 inv2 inv3]
      rw [writeAt_take _ _ _ h1]
      have hd : snapshot.drop inx = snapshot[inx] :: snapshot.drop (inx + 1) :=
        List.drop_eq_getElem_cons hin
      rw [hd, carryInto_cons _ _ _ ht]
      simp

/-- Carry-tail bridge in the push regime (`inx` beyond the accumulator, as
happens when `addition` is called with an offset past the end). -/
theorem additionCarry_bridge_beyond (snapshot : List Nat) (t : Nat) :
    ∀ (sum : List Nat) (inx : Nat), snapshot.length ≤ sum.length → sum.length < inx →
    additionCarry snapshot snapshot.length sum inx t = sum ++ carryInto [] t := by
  induction t using Nat.strong_induction_on with
  | _ t ih =>
    intro sum inx h1 h2
    by_cases ht : t = 0
    · subst ht
      rw [additionCarry_stop, carryInto_zero, List.append_nil]
    · rw [additionCarry_succ _ _ _ _ _ ht]
      have hx : (if inx < snapshot.length then snapshot.getD inx 0 else 0) = 0 :=
        if_neg (by omega)
      rw [hx, writeAt_beyond _ _ _ (by omega)]
      rw [ih (ones 0 t).2 (ones_snd_zero_lt t ht) _ (inx + 1) (by simp; omega)
        (by simp; omega)]
      rw [carryInto_nil _ ht]
      simp

theorem additionMain_bridge (addend1 : List Nat) : ∀ (snapshot sum : List Nat) (inx t : Nat),
    inx ≤ sum.length → sum.length = max snapshot.length inx →
    sum.drop inx = snapshot.drop inx →
    additionMain addend1 snapshot snapshot.length sum inx t =
      sum.take inx ++ addInto addend1 (snapshot.drop inx) t := by
  induction addend1 with
  | nil =>
    intro snapshot sum inx t h1 h2 h3
    exact additionCarry_bridge snapshot (snapshot.length - inx) sum inx t rfl h1 h2 h3
  | cons d ds ih =>
    intro snapshot sum inx t h1 h2 h3
    show additionMain (d :: ds) snapshot snapshot.length sum inx t = _
    rw [additionMain]
    have hnum : (if inx < snapshot.length then snapshot.getD inx 0 else 0) =
        (snapshot.drop inx).headD 0 := getD_eq_head_drop snapshot inx
    set num2 := (if inx < snapshot.length then snapshot.getD inx 0 else 0) with hdefn
    have inv1 : inx + 1 ≤ (writeAt sum inx (ones (num2 + d) t).1).length := by
      rw [writeAt_length _ _ _ h1]
      omega
    have inv2 : (writeAt sum inx (ones (num2 + d) t).1).length =
        max snapshot.length (inx + 1) := by
      rw [writeAt_length _ _ _ h1]
      omega
    have inv3 : (writeAt sum inx (ones (num2 + d) t).1).drop (inx + 1) =
        snapshot.drop (inx + 1) := by
      rw [writeAt_drop]
      exact drop_succ_of_drop sum snapshot inx h3
    rw [ih snapshot _ (inx + 1) _ inv1 inv2 inv3]
    rw [writeAt_take _ _ _ h1]
    show _ = sum.take inx ++
      ((ones ((snapshot.drop inx).headD 0 + d) t).1 ::
        addInto ds (snapshot.drop inx).tail (ones ((snapshot.drop inx).headD 0 + d) t).2)
    rw [← hnum, tail_drop_eq]
    simp

theorem additionMain_bridge_beyond (addend1 : List Nat) :
    ∀ (snapshot sum : List Nat) (inx t : Nat),
    snapshot.length ≤ sum.length → sum.length < inx →
    additionMain addend1 snapshot snapshot.length sum inx t =
      sum ++ addInto addend1 [] t := by
  induction addend1 with
  | nil =>
    intro snapshot sum inx t h1 h2
    exact additionCarry_bridge_beyond snapshot t sum inx h1 h2
  | cons d ds ih =>
    intro snapshot sum inx t h1 h2
    rw [additionMain]
    have hx : (if inx < snapshot.length then snapshot.getD inx 0 else 0) = 0 :=
      if_neg (by omega)
    rw [hx, writeAt_beyond _ _ _ (by omega)]
    rw [ih snapshot _ (inx + 1) _ (by simp; omega) (by simp; omega)]
    show _ = sum ++
      ((ones (List.headD [] 0 + d) t).1 ::
        addInto ds (List.tail []) (ones (List.headD [] 0 + d) t).2)
    simp

/-- Semantics of `addition` in self-addend mode: the places below `offset`
are untouched and `addend1` is accumulated into the rest. -/
theorem addition_none_eq (addend1 sum : List Nat) (offset : Nat) :
    addition addend1 none sum offset =
      sum.take offset ++ addInto addend1 (sum.drop offset) 0 := by
  show additionMain addend1 sum sum.length sum offset 0 = _
  by_cases h : offset ≤ sum.length
  · exact additionMain_bridge addend1 sum sum offset 0 h (by omega) rfl
  · rw [additionMain_bridge_beyond addend1 sum sum offset 0 (le_refl _) (by omega)]
    rw [List.take_of_length_le (by omega), List.drop_eq_nil_of_le (by omega)]

/-- Two-addend carry bridge once the snapshot is exhausted. -/
theorem additionCarry_bridge_two_after (a2 : List Nat) (t : Nat) :
    ∀ (sum : List Nat) (inx : Nat), inx = sum.length → a2.length ≤ inx →
    additionCarry a2 a2.length sum inx t = sum ++ carryTwo [] t := by
  induction t using Nat.strong_induction_on with
  | _ t ih =>
    intro sum inx h hge
    by_cases ht : t = 0
    · subst ht
      rw [additionCarry_stop, carryTwo_zero, List.append_nil]
    · rw [additionCarry_succ _ _ _ _ _ ht]
      have hx : (if inx < a2.length then a2.getD inx 0 else 0) = 0 := if_neg (by omega)
      rw [hx, writeAt_beyond _ _ _ (by omega)]
      rw [ih (ones 0 t).2 (ones_snd_zero_lt t ht) _ (inx + 1) (by simp [h]) (by omega)]
      rw [carryTwo_nil _ ht]
      simp

/-- Two-addend carry bridge: each write appends to the fresh output, and the
snapshot places from `inx` on are consumed. -/
theorem additionCarry_bridge_two (a2 : List Nat) :
    ∀ (k : Nat) (sum : List Nat) (inx t : Nat), a2.length - inx = k → inx = sum.length →
    additionCarry a2 a2.length sum inx t = sum ++ carryTwo (a2.drop inx) t := by
  intro k
  induction k with
  | zero =>
    intro sum inx t hk h
    have hge : a2.length ≤ inx := by omega
    rw [List.drop_eq_nil_of_le hge]
    exact additionCarry_bridge_two_after a2 t sum inx h hge
  | succ k ihk =>
    intro sum inx t hk h
    have hin : inx < a2.length := by omega
    by_cases ht : t = 0
    · subst ht
      rw [additionCarry_stop, carryTwo_zero, List.append_nil]
    · rw [additionCarry_succ _ _ _ _ _ ht]
      have hx : (if inx < a2.length then a2.getD inx 0 else 0) = a2[inx] := by
        rw [if_pos hin]
        simp [List.getD_eq_getElem?_getD, List.getElem?_eq_getElem hin]
      rw [hx, writeAt_beyond _ _ _ (by omega)]
      rw [ihk _ (inx + 1) _ (by omega) (by simp [h])]
      have hd : a2.drop inx = a2[inx] :: a2.drop (inx + 1) := List.drop_eq_getElem_cons hin
      rw [hd, carryTwo_cons _ _ _ ht]
      simp

theorem additionMain_bridge_two (addend1 : List Nat) : ∀ (a2 sum : List Nat) (inx t : Nat),
    inx = sum.length →
    additionMain addend1 a2 a2.length sum inx t = sum ++ addTwo addend1 (a2.drop inx) t := by
  induction addend1 with
  | nil =>
    intro a2 sum inx t h
    exact additionCarry_bridge_two a2 (a2.length - inx) sum inx t rfl h
  | cons d ds ih =>
    intro a2 sum inx t h
    rw [additionMain]
    have hnum : (if inx < a2.length then a2.getD inx 0 else 0) =
        (a2.drop inx).headD 0 := getD_eq_head_drop a2 inx
    set num2 := (if inx < a2.length then a2.getD inx 0 else 0) with hdefn
    have hw : writeAt sum inx (ones (num2 + d) t).1 = sum ++ [(ones (num2 + d) t).1] :=
      writeAt_beyond _ _ _ (by omega)
    rw [hw]
    rw [ih a2 _ (inx + 1) _ (by simp [h])]
    show _ = sum ++
      ((ones ((a2.drop inx).headD 0 + d) t).1 ::
        addTwo ds (a2.drop inx).tail (ones ((a2.drop inx).headD 0 + d) t).2)
    rw [← hnum, tail_drop_eq]
    simp

/-- Semantics of `addition` in two-addend mode from an empty accumulator. -/
theorem addition_some_eq (addend1 a2 : List Nat) :
    addition addend1 (some a2) [] 0 = addTwo addend1 a2 0 := by
  show additionMain addend1 a2 a2.length [] 0 0 = _
  rw [additionMain_bridge_two addend1 a2 [] 0 0 rfl]
  simp

/-! ### Value, digit and length facts about the addition semantics -/

theorem ones_fst (n t : Nat) : (ones n t).1 = (n + t) % 10 := by
  rw [ones_eq]

theorem ones_snd (n t : Nat) : (ones n t).2 = (n + t) / 10 := by
  rw [ones_eq]

theorem ones_fst_le (n t : Nat) : (ones n t).1 ≤ 9 := by
  rw [ones_fst]
  omega

theorem ones_split (n t : Nat) : (ones n t).1 + 10 * (ones n t).2 = n + t := by
  rw [ones_fst, ones_snd]
  omega

theorem ones_snd_le_one (n t : Nat) (hn : n ≤ 18) (ht : t ≤ 1) : (ones n t).2 ≤ 1 := by
  rw [ones_snd]
  omega

theorem valRow_headD_tail (s : List Nat) : valRow s = s.headD 0 + 10 * valRow s.tail := by
  cases s with
  | nil => simp [valRow]
  | cons x xs => rfl

theorem valRow_carryInto_nil (t : Nat) : valRow (carryInto [] t) = t := by
  induction t using Nat.strong_induction_on with
  | _ t ih =>
    by_cases ht : t = 0
    · subst ht
      rw [carryInto_zero]
      rfl
    · rw [carryInto_nil _ ht]
      show (ones 0 t).1 + 10 * valRow (carryInto [] (ones 0 t).2) = t
      rw [ih (ones 0 t).2 (ones_snd_zero_lt t ht)]
      have := ones_split 0 t
      omega

theorem valRow_carryInto (s : List Nat) : ∀ t, valRow (carryInto s t) = valRow s + t := by
  induction s with
  | nil =>
    intro t
    rw [valRow_carryInto_nil]
    simp [valRow]
  | cons x xs ih =>
    intro t
    by_cases ht : t = 0
    · subst ht
      rw [carryInto_zero]
      omega
    · rw [carryInto_cons _ _ _ ht]
      show (ones x t).1 + 10 * valRow (carryInto xs (ones x t).2) = valRow (x :: xs) + t
      rw [ih (ones x t).2]
      have := ones_split x t
      have hv : valRow (x :: xs) = x + 10 * valRow xs := rfl
      omega

theorem valRow_addInto (a1 : List Nat) : ∀ (s : List Nat) (t : Nat),
    valRow (addInto a1 s t) = valRow a1 + valRow s + t := by
  induction a1 with
  | nil =>
    intro s t
    show valRow (carryInto s t) = valRow [] + valRow s + t
    rw [valRow_carryInto]
    simp [valRow]
  | cons d ds ih =>
    intro s t
    show (ones (s.headD 0 + d) t).1 + 10 * valRow (addInto ds s.tail (ones (s.headD 0 + d) t).2)
        = valRow (d :: ds) + valRow s + t
    rw [ih s.tail]
    have h1 := ones_split (s.headD 0 + d) t
    have h2 := valRow_headD_tail s
    have hv : valRow (d :: ds) = d + 10 * valRow ds := rfl
    omega

theorem valRow_carryTwo_nil (t : Nat) : valRow (carryTwo [] t) = t := by
  induction t using Nat.strong_induction_on with
  | _ t ih =>
    by_cases ht : t = 0
    · subst ht
      rw [carryTwo_zero]
      rfl
    · rw [carryTwo_nil _ ht]
      show (ones 0 t).1 + 10 * valRow (carryTwo [] (ones 0 t).2) = t
      rw [ih (ones 0 t).2 (ones_snd_zero_lt t ht)]
      have := ones_split 0 t
      omega

theorem valRow_addTwo (a1 : List Nat) : ∀ (s : List Nat) (t : Nat), s.length ≤ a1.length →
    valRow (addTwo a1 s t) = valRow a1 + valRow s + t := by
  induction a1 with
  | nil =>
    intro s t hlen
    have hlen0 : s.length = 0 := by simpa using hlen
    have hs : s = [] := List.length_eq_zero.mp hlen0
    subst hs
    show valRow (carryTwo [] t) = valRow [] + valRow [] + t
    rw [valRow_carryTwo_nil]
    simp [valRow]
  | cons d ds ih =>
    intro s t hlen
    show (ones (s.headD 0 + d) t).1 + 10 * valRow (addTwo ds s.tail (ones (s.headD 0 + d) t).2)
        = valRow (d :: ds) + valRow s + t
    rw [ih s.tail _ (by
      cases s with
      | nil => simp
      | cons z zs =>
        simp only [List.length_cons, List.tail_cons] at hlen ⊢
        omega)]
    have h1 := ones_split (s.headD 0 + d) t
    have h2 := valRow_headD_tail s
    have hv : valRow (d :: ds) = d + 10 * valRow ds := rfl
    omega

theorem digits_carryInto (s : List Nat) (hs : ∀ x ∈ s, x ≤ 9) :
    ∀ t, ∀ d ∈ carryInto s t, d ≤ 9 := by
  induction s with
  | nil =>
    intro t
    intro d hd
    induction t using Nat.strong_induction_on generalizing d with
    | _ t ih =>
      by_cases ht : t = 0
      · subst ht
        rw [carryInto_zero] at hd
        simp at hd
      · rw [carryInto_nil _ ht] at hd
        rcases List.mem_cons.mp hd with h | h
        · rw [h]
          exact ones_fst_le 0 t
        · exact ih (ones 0 t).2 (ones_snd_zero_lt t ht) d h
  | cons x xs ih =>
    intro t d hd
    by_cases ht : t = 0
    · subst ht
      rw [carryInto_zero] at hd
      exact hs d hd
    · rw [carryInto_cons _ _ _ ht] at hd
      rcases List.mem_cons.mp hd with h | h
      · rw [h]
        exact ones_fst_le x t
      · exact ih (fun y hy => hs y (by simp [hy])) (ones x t).2 d h

theorem digits_addInto (a1 : List Nat) : ∀ (s : List Nat) (t : Nat), (∀ x ∈ s, x ≤ 9) →
    ∀ d ∈ addInto a1 s t, d ≤ 9 := by
  induction a1 with
  | nil =>
    intro s t hs d hd
    exact digits_carryInto s hs t d hd
  | cons e ds ih =>
    intro s t hs d hd
    rcases List.mem_cons.mp hd with h | h
    · rw [h]
      exact ones_fst_le _ _
    · refine ih s.tail _ (fun y hy => hs y ?_) d h
      cases s with
      | nil => simp at hy
      | cons z zs => exact List.mem_cons_of_mem z (by simpa using hy)

theorem digits_carryTwo (s : List Nat) : ∀ t, ∀ d ∈ carryTwo s t, d ≤ 9 := by
  induction s with
  | nil =>
    intro t d hd
    induction t using Nat.strong_induction_on generalizing d with
    | _ t ih =>
      by_cases ht : t = 0
      · subst ht
        rw [carryTwo_zero] at hd
        simp at hd
      · rw [carryTwo_nil _ ht] at hd
        rcases List.mem_cons.mp hd with h | h
        · rw [h]
          exact ones_fst_le 0 t
        · exact ih (ones 0 t).2 (ones_snd_zero_lt t ht) d h
  | cons x xs ih =>
    intro t d hd
    by_cases ht : t = 0
    · subst ht
      rw [carryTwo_zero] at hd
      simp at hd
    · rw [carryTwo_cons _ _ _ ht] at hd
      rcases List.mem_cons.mp hd with h | h
      · rw [h]
        exact ones_fst_le x t
      · exact ih (ones x t).2 d h

theorem digits_addTwo (a1 : List Nat) : ∀ (s : List Nat) (t : Nat),
    ∀ d ∈ addTwo a1 s t, d ≤ 9 := by
  induction a1 with
  | nil =>
    intro s t d hd
    exact digits_carryTwo s t d hd
  | cons e ds ih =>
    intro s t d hd
    rcases List.mem_cons.mp hd with h | h
    · rw [h]
      exact ones_fst_le _ _
    · exact ih s.tail _ d h

theorem getLast?_cons_ne (a : Nat) (l : List Nat) (h : l ≠ []) :
    (a :: l).getLast? = l.getLast? := by
  obtain ⟨y, ys, rfl⟩ := List.exists_cons_of_ne_nil h
  rw [List.getLast?_cons_cons]

theorem carryTwo_one_eval : carryTwo [] 1 = [1] := by
  rw [carryTwo_nil _ one_ne_zero]
  have he : ones 0 1 = (1, 0) := by rw [ones_eq]
  rw [he, carryTwo_zero]

/-- With digit-valid operands and the two-addend length discipline, the
output of the two-addend loop is one place per `addend_1` place, plus at
most one final takeover place which is then `1`. -/
theorem addTwo_length (a1 : List Nat) : ∀ (s : List Nat) (t : Nat),
    (∀ x ∈ a1, x ≤ 9) → (∀ x ∈ s, x ≤ 9) → t ≤ 1 → s.length ≤ a1.length →
    (addTwo a1 s t).length = a1.length ∨
      ((addTwo a1 s t).length = a1.length + 1 ∧ (addTwo a1 s t).getLast? = some 1) := by
  induction a1 with
  | nil =>
    intro s t _ _ ht hlen
    have hs : s = [] := List.length_eq_zero.mp (by simpa using hlen)
    subst hs
    rcases Nat.le_one_iff_eq_zero_or_eq_one.mp ht with h0 | h1
    · subst h0
      left
      show (carryTwo [] 0).length = 0
      rw [carryTwo_zero]
      rfl
    · subst h1
      right
      show (carryTwo [] 1).length = 0 + 1 ∧ (carryTwo [] 1).getLast? = some 1
      rw [carryTwo_one_eval]
      exact ⟨rfl, rfl⟩
  | cons d ds ih =>
    intro s t ha hs ht hlen
    have hd9 : d ≤ 9 := ha d (by simp)
    have hh9 : s.headD 0 ≤ 9 := by
      cases s with
      | nil => simp
      | cons z zs => exact hs z (by simp)
    have ht' : (ones (s.headD 0 + d) t).2 ≤ 1 := ones_snd_le_one _ _ (by omega) ht
    have hlen' : s.tail.length ≤ ds.length := by
      cases s with
      | nil => simp
      | cons z zs =>
        simp only [List.length_cons, List.tail_cons] at hlen ⊢
        omega
    have hs' : ∀ x ∈ s.tail, x ≤ 9 := by
      intro x hx
      cases s with
      | nil => simp at hx
      | cons z zs => exact hs x (List.mem_cons_of_mem z (by simpa using hx))
    have ha' : ∀ x ∈ ds, x ≤ 9 := fun x hx => ha x (by simp [hx])
    rcases ih s.tail (ones (s.headD 0 + d) t).2 ha' hs' ht' hlen' with hL | ⟨hL, hlast⟩
    · left
      show ((ones (s.headD 0 + d) t).1 :: addTwo ds s.tail (ones (s.headD 0 + d) t).2).length
        = ds.length + 1
      rw [List.length_cons, hL]
    · right
      constructor
      · show ((ones (s.headD 0 + d) t).1 :: addTwo ds s.tail (ones (s.headD 0 + d) t).2).length
          = ds.length + 1 + 1
        rw [List.length_cons, hL]
      · show ((ones (s.headD 0 + d) t).1 :: addTwo ds s.tail (ones (s.headD 0 + d) t).2).getLast?
          = some 1
        rw [getLast?_cons_ne _ _ (by
          intro hc
          rw [hc] at hL
          simp at hL)]
        exact hlast

/-- Length of the canonical digit row. -/
theorem new_from_num_row_length (L : Nat) : ∀ (V : Nat), 1 ≤ L → V < 10 ^ L →
    (10 ^ (L - 1) ≤ V ∨ L = 1) → (new_from_num_row V).length = L := by
  induction L with
  | zero => omega
  | succ L ihL =>
    intro V _ hlt hge
    rcases Nat.eq_zero_or_pos L with hL0 | hLpos
    · subst hL0
      rw [new_from_num_row_eq]
      have h10 : V / 10 = 0 := by
        rw [pow_one] at hlt
        omega
      rw [if_pos h10]
      rfl
    · have hgeV : 10 ^ L ≤ V := by
        rcases hge with h | h
        · simpa using h
        · omega
      have hV10 : 10 ≤ V := by
        calc 10 = 10 ^ 1 := (pow_one 10).symm
          _ ≤ 10 ^ L := Nat.pow_le_pow_right (by norm_num) hLpos
          _ ≤ V := hgeV
      rw [new_from_num_row_eq]
      have hnz : ¬(V / 10 = 0) := by omega
      rw [if_neg hnz, List.length_cons]
      have hrec : (new_from_num_row (V / 10)).length = L := by
        refine ihL (V / 10) hLpos ?_ (Or.inl ?_)
        · rw [Nat.div_lt_iff_lt_mul (by norm_num)]
          calc V < 10 ^ (L + 1) := hlt
            _ = 10 ^ L * 10 := by rw [pow_succ]
        · have h3 : 10 ^ L / 10 ≤ V / 10 := Nat.div_le_div_right hgeV
          have hp : (10 : Nat) ^ L = 10 ^ (L - 1) * 10 := by
            conv_lhs => rw [show L = (L - 1) + 1 by omega]
            rw [pow_succ]
          rw [hp] at h3
          have hcancel : 10 ^ (L - 1) * 10 / 10 = 10 ^ (L - 1) := by omega
          rwa [hcancel] at h3
      rw [hrec]

/-- The two-addend loop started with takeover 0 on valid rows computes the
canonical digit row of the sum of the values. -/
theorem addTwo_canonical (a1 s : List Nat) (h1 : ValidRow a1) (h2 : ∀ x ∈ s, x ≤ 9)
    (hlen : s.length ≤ a1.length) :
    addTwo a1 s 0 = new_from_num_row (valRow a1 + valRow s) := by
  have hdig : ∀ x ∈ addTwo a1 s 0, x ≤ 9 := digits_addTwo a1 s 0
  have hval : valRow (addTwo a1 s 0) = valRow a1 + valRow s := by
    rw [valRow_addTwo a1 s 0 hlen]
    omega
  have hne : a1 ≠ [] := h1.1
  have ha1len : 1 ≤ a1.length := by
    cases a1 with
    | nil => exact absurd rfl hne
    | cons z zs => simp
  rcases addTwo_length a1 s 0 h1.2.1 h2 (by omega) hlen with hL | ⟨hL, hlast⟩
  · have hlt : valRow a1 + valRow s < 10 ^ a1.length := by
      rw [← hval, ← hL]
      exact valRow_lt _ hdig
    have hge : 10 ^ (a1.length - 1) ≤ valRow a1 + valRow s ∨ a1.length = 1 := by
      by_cases hz : a1 = [0]
      · right
        rw [hz]
        rfl
      · left
        calc 10 ^ (a1.length - 1) ≤ valRow a1 := valid_ge_pow a1 h1 hz
          _ ≤ valRow a1 + valRow s := by omega
    have hclen : (new_from_num_row (valRow a1 + valRow s)).length = a1.length :=
      new_from_num_row_length a1.length _ ha1len hlt hge
    exact rows_eq_of_val_of_len _ _ hdig (new_from_num_row_digits _)
      (by rw [hL, hclen]) (by rw [hval, valRow_new_from_num_row])
  · have hlt : valRow a1 + valRow s < 10 ^ (a1.length + 1) := by
      rw [← hval, ← hL]
      exact valRow_lt _ hdig
    have hge : 10 ^ (a1.length + 1 - 1) ≤ valRow a1 + valRow s := by
      have := valRow_ge_of_getLast (addTwo a1 s 0) 1 hlast
      rw [hval, hL] at this
      simpa using this
    have hclen : (new_from_num_row (valRow a1 + valRow s)).length = a1.length + 1 :=
      new_from_num_row_length (a1.length + 1) _ (by omega) hlt (Or.inl hge)
    exact rows_eq_of_val_of_len _ _ hdig (new_from_num_row_digits _)
      (by rw [hL, hclen]) (by rw [hval, valRow_new_from_num_row])

/-- `add` computes the canonical row of the sum of the values. -/
theorem add_eq_canonical (x y : PlacesRow) (hx : ValidRow x.row) (hy : ValidRow y.row) :
    add x y = new_from_num (valRow x.row + valRow y.row) := by
  have hadd : add x y =
      ⟨addition (if x.row.length > y.row.length then (x.row, y.row) else (y.row, x.row)).1
        (some (if x.row.length > y.row.length then (x.row, y.row) else (y.row, x.row)).2)
        [] 0⟩ := rfl
  by_cases h : x.row.length > y.row.length
  · rw [hadd, if_pos h]
    show (⟨addition x.row (some y.row) [] 0⟩ : PlacesRow) = _
    unfold new_from_num
    rw [PlacesRow.mk.injEq, addition_some_eq]
    exact addTwo_canonical x.row y.row hx hy.2.1 (le_of_lt h)
  · rw [hadd, if_neg h]
    show (⟨addition y.row (some x.row) [] 0⟩ : PlacesRow) = _
    unfold new_from_num
    rw [PlacesRow.mk.injEq, addition_some_eq]
    rw [addTwo_canonical y.row x.row hy hx.2.1 (by omega), Nat.add_comm]

/-! ### Correctness of the comparator -/

theorem valM_append (xs ys : List Nat) :
    valM (xs ++ ys) = valM xs * 10 ^ ys.length + valM ys := by
  induction xs with
  | nil => simp [valM]
  | cons d rest ih =>
    have h1 : valM ((d :: rest) ++ ys) = d * 10 ^ (rest ++ ys).length + valM (rest ++ ys) := rfl
    have h2 : valM (d :: rest) = d * 10 ^ rest.length + valM rest := rfl
    rw [h1, h2, ih, List.length_append, pow_add]
    ring

theorem valRow_eq_valM_reverse (r : List Nat) : valRow r = valM r.reverse := by
  induction r with
  | nil => rfl
  | cons d rest ih =>
    have h1 : (d :: rest).reverse = rest.reverse ++ [d] := by simp
    rw [h1, valM_append]
    have h2 : valM [d] = d * 10 ^ (0:Nat) + valM [] := rfl
    have h3 : valRow (d :: rest) = d + 10 * valRow rest := rfl
    rw [h2, h3, ih]
    simp [valM]
    ring

theorem valM_lt (l : List Nat) (h : ∀ d ∈ l, d ≤ 9) : valM l < 10 ^ l.length := by
  induction l with
  | nil => simp [valM]
  | cons d rest ih =>
    have hd : d ≤ 9 := h d (by simp)
    have hr : valM rest < 10 ^ rest.length := ih (fun x hx => h x (by simp [hx]))
    have h1 : valM (d :: rest) = d * 10 ^ rest.length + valM rest := rfl
    rw [h1, List.length_cons, pow_succ]
    have : d * 10 ^ rest.length ≤ 9 * 10 ^ rest.length := Nat.mul_le_mul_right _ hd
    omega

theorem cmpPlaces_refl (z : List Nat) : cmpPlaces z z = Rel.Equal := by
  induction z with
  | nil => rfl
  | cons a xs ih =>
    show (if a > a then Rel.Greater else if a < a then Rel.Lesser else cmpPlaces xs xs) = _
    rw [if_neg (lt_irrefl a), if_neg (lt_irrefl a)]
    exact ih

theorem cmpPlaces_eq (x : List Nat) : ∀ y, x.length = y.length →
    cmpPlaces x y = Rel.Equal → x = y := by
  induction x with
  | nil =>
    intro y hlen _
    cases y with
    | nil => rfl
    | cons b ys => simp at hlen
  | cons a xs ih =>
    intro y hlen hcmp
    cases y with
    | nil => simp at hlen
    | cons b ys =>
      show a :: xs = b :: ys
      by_cases hab : a > b
      · rw [show cmpPlaces (a :: xs) (b :: ys) = Rel.Greater by
          show (if a > b then Rel.Greater else _) = _
          rw [if_pos hab]] at hcmp
        exact absurd hcmp (by simp)
      · by_cases hba : a < b
        · rw [show cmpPlaces (a :: xs) (b :: ys) = Rel.Lesser by
            show (if a > b then Rel.Greater else if a < b then Rel.Lesser else _) = _
            rw [if_neg hab, if_pos hba]] at hcmp
          exact absurd hcmp (by simp)
        · have hcmp' : cmpPlaces xs ys = Rel.Equal := by
            rw [show cmpPlaces (a :: xs) (b :: ys) = cmpPlaces xs ys by
              show (if a > b then Rel.Greater else if a < b then Rel.Lesser else _) = _
              rw [if_neg hab, if_neg hba]] at hcmp
            exact hcmp
          have hab2 : a = b := by omega
          rw [hab2, ih ys (by simpa using hlen) hcmp']

theorem cmpPlaces_gt (x : List Nat) : ∀ y, x.length = y.length → (∀ d ∈ x, d ≤ 9) →
    (∀ d ∈ y, d ≤ 9) → cmpPlaces x y = Rel.Greater → valM y < valM x := by
  induction x with
  | nil =>
    intro y hlen _ _ hcmp
    cases y with
    | nil => exact absurd hcmp (by simp [cmpPlaces])
    | cons b ys => simp at hlen
  | cons a xs ih =>
    intro y hlen hx hy hcmp
    cases y with
    | nil => simp at hlen
    | cons b ys =>
      have hlen' : xs.length = ys.length := by simpa using hlen
      have hvx : valM (a :: xs) = a * 10 ^ xs.length + valM xs := rfl
      have hvy : valM (b :: ys) = b * 10 ^ ys.length + valM ys := rfl
      by_cases hab : a > b
      · have hys : valM ys < 10 ^ ys.length := valM_lt ys (fun d hd => hy d (by simp [hd]))
        rw [hvx, hvy, ← hlen']
        have h1 : (b + 1) * 10 ^ xs.length ≤ a * 10 ^ xs.length :=
          Nat.mul_le_mul_right _ hab
        rw [← hlen'] at hys
        nlinarith [hys, h1]
      · by_cases hba : a < b
        · rw [show cmpPlaces (a :: xs) (b :: ys) = Rel.Lesser by
            show (if a > b then Rel.Greater else if a < b then Rel.Lesser else _) = _
            rw [if_neg hab, if_pos hba]] at hcmp
          exact absurd hcmp (by simp)
        · have hab2 : a = b := by omega
          have hcmp' : cmpPlaces xs ys = Rel.Greater := by
            rw [show cmpPlaces (a :: xs) (b :: ys) = cmpPlaces xs ys by
              show (if a > b then Rel.Greater else if a < b then Rel.Lesser else _) = _
              rw [if_neg hab, if_neg hba]] at hcmp
            exact hcmp
          have := ih ys hlen' (fun d hd => hx d (by simp [hd]))
            (fun d hd => hy d (by simp [hd])) hcmp'
          rw [hvx, hvy, hab2, hlen']
          omega

theorem cmpPlaces_cases (x y : List Nat) :
    cmpPlaces x y = Rel.Equal ∨ cmpPlaces x y = Rel.Greater ∨ cmpPlaces x y = Rel.Lesser := by
  cases h : cmpPlaces x y
  · exact Or.inr (Or.inl rfl)
  · exact Or.inl rfl
  · exact Or.inr (Or.inr rfl)

theorem cmpPlaces_lt (x y : List Nat) (hlen : x.length = y.length) (hx : ∀ d ∈ x, d ≤ 9)
    (hy : ∀ d ∈ y, d ≤ 9) (hcmp : cmpPlaces x y = Rel.Lesser) : valM x < valM y := by
  induction x generalizing y with
  | nil =>
    cases y with
    | nil => exact absurd hcmp (by simp [cmpPlaces])
    | cons b ys => simp at hlen
  | cons a xs ih =>
    cases y with
    | nil => simp at hlen
    | cons b ys =>
      have hlen' : xs.length = ys.length := by simpa using hlen
      have hvx : valM (a :: xs) = a * 10 ^ xs.length + valM xs := rfl
      have hvy : valM (b :: ys) = b * 10 ^ ys.length + valM ys := rfl
      by_cases hab : a > b
      · rw [show cmpPlaces (a :: xs) (b :: ys) = Rel.Greater by
          show (if a > b then Rel.Greater else _) = _
          rw [if_pos hab]] at hcmp
        exact absurd hcmp (by simp)
      · by_cases hba : a < b
        · have hxs : valM xs < 10 ^ xs.length := valM_lt xs (fun d hd => hx d (by simp [hd]))
          rw [hvx, hvy, ← hlen']
          have h1 : (a + 1) * 10 ^ xs.length ≤ b * 10 ^ xs.length :=
            Nat.mul_le_mul_right _ hba
          nlinarith [hxs, h1]
        · have hab2 : a = b := by omega
          have hcmp' : cmpPlaces xs ys = Rel.Lesser := by
            rw [show cmpPlaces (a :: xs) (b :: ys) = cmpPlaces xs ys by
              show (if a > b then Rel.Greater else if a < b then Rel.Lesser else _) = _
              rw [if_neg hab, if_neg hba]] at hcmp
            exact hcmp
          have := ih ys hlen' (fun d hd => hx d (by simp [hd]))
            (fun d hd => hy d (by simp [hd])) hcmp'
          rw [hvx, hvy, hab2, hlen']
          omega

/-- `rel` on valid rows decides the three-way comparison of the values. -/
theorem rel_spec (x y : PlacesRow) (hx : ValidRow x.row) (hy : ValidRow y.row) :
    (rel x y = Rel.Equal ↔ x = y) ∧
    (rel x y = Rel.Greater ↔ valRow y.row < valRow x.row) ∧
    (rel x y = Rel.Lesser ↔ valRow x.row < valRow y.row) := by
  have hxlen : 1 ≤ x.row.length := by
    cases hxr : x.row with
    | nil => exact absurd hxr hx.1
    | cons a as => simp
  have hylen : 1 ≤ y.row.length := by
    cases hyr : y.row with
    | nil => exact absurd hyr hy.1
    | cons a as => simp
  have hrel : rel x y = (if x.row.length > y.row.length then Rel.Greater
      else if x.row.length = y.row.length then cmpPlaces x.row.reverse y.row.reverse
      else Rel.Lesser) := rfl
  by_cases hgt : x.row.length > y.row.length
  · have hxne : x.row ≠ [0] := by
      intro hc
      have h1 : x.row.length = 1 := by rw [hc]; rfl
      omega
    have hvy : valRow y.row < valRow x.row :=
      calc valRow y.row < 10 ^ y.row.length := valRow_lt _ hy.2.1
        _ ≤ 10 ^ (x.row.length - 1) := Nat.pow_le_pow_right (by norm_num) (by omega)
        _ ≤ valRow x.row := valid_ge_pow _ hx hxne
    rw [hrel, if_pos hgt]
    refine ⟨⟨fun hc => absurd hc (by simp), fun hxy => ?_⟩,
            ⟨fun _ => hvy, fun _ => rfl⟩,
            ⟨fun hc => absurd hc (by simp), fun hvlt => ?_⟩⟩
    · exfalso
      rw [hxy] at hgt
      omega
    · exfalso
      omega
  · by_cases heq : x.row.length = y.row.length
    · rw [hrel, if_neg hgt, if_pos heq]
      have hlenr : x.row.reverse.length = y.row.reverse.length := by
        simp [heq]
      have hdx : ∀ d ∈ x.row.reverse, d ≤ 9 := fun d hd => hx.2.1 d (List.mem_reverse.mp hd)
      have hdy : ∀ d ∈ y.row.reverse, d ≤ 9 := fun d hd => hy.2.1 d (List.mem_reverse.mp hd)
      have hvx := valRow_eq_valM_reverse x.row
      have hvy := valRow_eq_valM_reverse y.row
      have hrows : cmpPlaces x.row.reverse y.row.reverse = Rel.Equal → x.row = y.row := by
        intro hc
        have h2 := cmpPlaces_eq _ _ hlenr hc
        have h3 := congrArg List.reverse h2
        simpa using h3
      refine ⟨⟨fun hc => ?_, fun hxy => ?_⟩, ⟨fun hc => ?_, fun hval => ?_⟩,
        ⟨fun hc => ?_, fun hval => ?_⟩⟩
      · have hr := hrows hc
        cases x
        cases y
        simpa using hr
      · rw [hxy]
        exact cmpPlaces_refl _
      · have := cmpPlaces_gt _ _ hlenr hdx hdy hc
        omega
      · rcases cmpPlaces_cases x.row.reverse y.row.reverse with hc | hc | hc
        · exfalso
          have hr := hrows hc
          rw [hr] at hval
          omega
        · exact hc
        · exfalso
          have := cmpPlaces_lt _ _ hlenr hdx hdy hc
          omega
      · have := cmpPlaces_lt _ _ hlenr hdx hdy hc
        omega
      · rcases cmpPlaces_cases x.row.reverse y.row.reverse with hc | hc | hc
        · exfalso
          have hr := hrows hc
          rw [hr] at hval
          omega
        · exfalso
          have := cmpPlaces_gt _ _ hlenr hdx hdy hc
          omega
        · exact hc
    · have hlt : x.row.length < y.row.length := by omega
      have hyne : y.row ≠ [0] := by
        intro hc
        have h1 : y.row.length = 1 := by rw [hc]; rfl
        omega
      have hvx : valRow x.row < valRow y.row :=
        calc valRow x.row < 10 ^ x.row.length := valRow_lt _ hx.2.1
          _ ≤ 10 ^ (y.row.length - 1) := Nat.pow_le_pow_right (by norm_num) (by omega)
          _ ≤ valRow y.row := valid_ge_pow _ hy hyne
      rw [hrel, if_neg hgt, if_neg heq]
      refine ⟨⟨fun hc => absurd hc (by simp), fun hxy => ?_⟩,
              ⟨fun hc => absurd hc (by simp), fun hvlt => ?_⟩,
              ⟨fun _ => hvx, fun _ => rfl⟩⟩
      · exfalso
        rw [hxy] at heq
        exact heq rfl
      · exfalso
        omega

/-- A `Greater` outcome bounds the comparand's length. -/
theorem rel_greater_len (x y : PlacesRow) (h : rel x y = Rel.Greater) :
    y.row.length ≤ x.row.length := by
  have hrel : rel x y = (if x.row.length > y.row.length then Rel.Greater
      else if x.row.length = y.row.length then cmpPlaces x.row.reverse y.row.reverse
      else Rel.Lesser) := rfl
  by_cases hgt : x.row.length > y.row.length
  · omega
  · by_cases heq : x.row.length = y.row.length
    · omega
    · rw [hrel, if_neg hgt, if_neg heq] at h
      exact absurd h (by simp)

/-! ### The borrow-subtraction pass -/

theorem subPass_false_cons_borrow (mnum : Nat) (mrest srow : List Nat) (t : Nat)
    (h : mnum < srow.headD 0 + t) :
    subPass false (mnum :: mrest) srow t =
      ((mnum + 10 - (srow.headD 0 + t)) :: (subPass false mrest srow.tail 1).1,
       (subPass false mrest srow.tail 1).2) := by
  show (if (srow.isEmpty && (t == 0) && false) = true then _ else _) = _
  rw [if_neg (by simp)]
  show ((if mnum < srow.headD 0 + t then (mnum + 10 - (srow.headD 0 + t), 1)
      else (mnum - (srow.headD 0 + t), 0)).1 ::
      (subPass false mrest srow.tail
        (if mnum < srow.headD 0 + t then (mnum + 10 - (srow.headD 0 + t), 1)
         else (mnum - (srow.headD 0 + t), 0)).2).1,
      (subPass false mrest srow.tail
        (if mnum < srow.headD 0 + t then (mnum + 10 - (srow.headD 0 + t), 1)
         else (mnum - (srow.headD 0 + t), 0)).2).2) = _
  rw [if_pos h]

theorem subPass_false_cons_noborrow (mnum : Nat) (mrest srow : List Nat) (t : Nat)
    (h : ¬mnum < srow.headD 0 + t) :
    subPass false (mnum :: mrest) srow t =
      ((mnum - (srow.headD 0 + t)) :: (subPass false mrest srow.tail 0).1,
       (subPass false mrest srow.tail 0).2) := by
  show (if (srow.isEmpty && (t == 0) && false) = true then _ else _) = _
  rw [if_neg (by simp)]
  show ((if mnum < srow.headD 0 + t then (mnum + 10 - (srow.headD 0 + t), 1)
      else (mnum - (srow.headD 0 + t), 0)).1 ::
      (subPass false mrest srow.tail
        (if mnum < srow.headD 0 + t then (mnum + 10 - (srow.headD 0 + t), 1)
         else (mnum - (srow.headD 0 + t), 0)).2).1,
      (subPass false mrest srow.tail
        (if mnum < srow.headD 0 + t then (mnum + 10 - (srow.headD 0 + t), 1)
         else (mnum - (srow.headD 0 + t), 0)).2).2) = _
  rw [if_neg h]

theorem subPass_false_nil_zero (m : List Nat) : subPass false m [] 0 = (m, 0) := by
  induction m with
  | nil => rfl
  | cons mnum mrest ih =>
    rw [subPass_false_cons_noborrow mnum mrest [] 0 (by simp)]
    show ((mnum - (List.headD [] 0 + 0)) :: (subPass false mrest [] 0).1,
      (subPass false mrest [] 0).2) = _
    rw [ih]
    simp

/-- The populated-mode early break of the pass does not change its result. -/
theorem subPass_true_eq (m : List Nat) : ∀ (s : List Nat) (t : Nat),
    subPass true m s t = subPass false m s t := by
  induction m with
  | nil =>
    intro s t
    rfl
  | cons mnum mrest ih =>
    intro s t
    by_cases hbreak : s.isEmpty ∧ t = 0
    · obtain ⟨hse, ht0⟩ := hbreak
      have hs : s = [] := by
        cases s with
        | nil => rfl
        | cons z zs => simp at hse
      subst hs
      subst ht0
      show (if (List.isEmpty [] && ((0:Nat) == 0) && true) = true then _ else _) = _
      rw [if_pos (by simp)]
      rw [subPass_false_nil_zero]
    · have hcond : ¬((s.isEmpty && (t == 0) && true) = true) := by
        simp only [Bool.and_true, Bool.and_eq_true, beq_iff_eq]
        intro hc
        exact hbreak ⟨by simp [hc.1], hc.2⟩
      show (if (s.isEmpty && (t == 0) && true) = true then _ else _) = _
      rw [if_neg hcond]
      by_cases h : mnum < s.headD 0 + t
      · rw [subPass_false_cons_borrow mnum mrest s t h]
        show ((if mnum < s.headD 0 + t then (mnum + 10 - (s.headD 0 + t), 1)
            else (mnum - (s.headD 0 + t), 0)).1 ::
            (subPass true mrest s.tail
              (if mnum < s.headD 0 + t then (mnum + 10 - (s.headD 0 + t), 1)
               else (mnum - (s.headD 0 + t), 0)).2).1,
            (subPass true mrest s.tail
              (if mnum < s.headD 0 + t then (mnum + 10 - (s.headD 0 + t), 1)
               else (mnum - (s.headD 0 + t), 0)).2).2) = _
        rw [if_pos h, ih]
      · rw [subPass_false_cons_noborrow mnum mrest s t h]
        show ((if mnum < s.headD 0 + t then (mnum + 10 - (s.headD 0 + t), 1)
            else (mnum - (s.headD 0 + t), 0)).1 ::
            (subPass true mrest s.tail
              (if mnum < s.headD 0 + t then (mnum + 10 - (s.headD 0 + t), 1)
               else (mnum - (s.headD 0 + t), 0)).2).1,
            (subPass true mrest s.tail
              (if mnum < s.headD 0 + t then (mnum + 10 - (s.headD 0 + t), 1)
               else (mnum - (s.headD 0 + t), 0)).2).2) = _
        rw [if_neg h, ih]

/-- Full specification of one borrow pass: it preserves length and digit
range, its final takeover is a borrow bit, and the usual place-value
equation holds. -/
theorem subPass_spec (m : List Nat) : ∀ (s : List Nat) (t : Nat), (∀ d ∈ m, d ≤ 9) →
    (∀ d ∈ s, d ≤ 9) → t ≤ 1 →
    (subPass false m s t).1.length = m.length ∧
    (∀ d ∈ (subPass false m s t).1, d ≤ 9) ∧
    (subPass false m s t).2 ≤ 1 ∧
    valRow (subPass false m s t).1 + (valRow (s.take m.length) + t) =
      valRow m + (subPass false m s t).2 * 10 ^ m.length := by
  induction m with
  | nil =>
    intro s t _ _ ht
    have he : subPass false [] s t = ([], t) := rfl
    rw [he]
    refine ⟨rfl, by simp, ht, ?_⟩
    simp [valRow]
  | cons mnum mrest ih =>
    intro s t hm hs ht
    have hm' : ∀ d ∈ mrest, d ≤ 9 := fun d hd => hm d (by simp [hd])
    have hmn : mnum ≤ 9 := hm mnum (by simp)
    have hs' : ∀ d ∈ s.tail, d ≤ 9 := by
      intro d hd
      cases s with
      | nil => simp at hd
      | cons z zs => exact hs d (List.mem_cons_of_mem z (by simpa using hd))
    have hsh : s.headD 0 ≤ 9 := by
      cases s with
      | nil => simp
      | cons z zs => exact hs z (by simp)
    have htake : valRow (s.take (mnum :: mrest).length) =
        s.headD 0 + 10 * valRow (s.tail.take mrest.length) := by
      cases s with
      | nil => simp [valRow]
      | cons z zs =>
        show valRow (z :: zs.take mrest.length) = z + 10 * valRow (zs.take mrest.length)
        rfl
    have hlen2 : (10:Nat) ^ (mnum :: mrest).length = 10 * 10 ^ mrest.length := by
      rw [List.length_cons, pow_succ]
      ring
    have hv2 : valRow (mnum :: mrest) = mnum + 10 * valRow mrest := rfl
    by_cases hlt : mnum < s.headD 0 + t
    · rw [subPass_false_cons_borrow mnum mrest s t hlt]
      obtain ⟨ihlen, ihdig, ihb, ihval⟩ := ih s.tail 1 hm' hs' (le_refl 1)
      refine ⟨by simpa using ihlen, ?_, ihb, ?_⟩
      · intro d hd
        rcases List.mem_cons.mp hd with h | h
        · omega
        · exact ihdig d h
      · show valRow ((mnum + 10 - (s.headD 0 + t)) :: (subPass false mrest s.tail 1).1) +
            (valRow (s.take (mnum :: mrest).length) + t) =
            valRow (mnum :: mrest) + (subPass false mrest s.tail 1).2 * 10 ^ (mnum :: mrest).length
        have hv1 : valRow ((mnum + 10 - (s.headD 0 + t)) :: (subPass false mrest s.tail 1).1) =
            (mnum + 10 - (s.headD 0 + t)) + 10 * valRow (subPass false mrest s.tail 1).1 := rfl
        rw [hv1, hv2, htake, hlen2]
        rcases Nat.le_one_iff_eq_zero_or_eq_one.mp ihb with hb | hb <;>
          rw [hb] at ihval ⊢ <;> omega
    · rw [subPass_false_cons_noborrow mnum mrest s t hlt]
      obtain ⟨ihlen, ihdig, ihb, ihval⟩ := ih s.tail 0 hm' hs' (by omega)
      refine ⟨by simpa using ihlen, ?_, ihb, ?_⟩
      · intro d hd
        rcases List.mem_cons.mp hd with h | h
        · omega
        · exact ihdig d h
      · show valRow ((mnum - (s.headD 0 + t)) :: (subPass false mrest s.tail 0).1) +
            (valRow (s.take (mnum :: mrest).length) + t) =
            valRow (mnum :: mrest) + (subPass false mrest s.tail 0).2 * 10 ^ (mnum :: mrest).length
        have hv1 : valRow ((mnum - (s.headD 0 + t)) :: (subPass false mrest s.tail 0).1) =
            (mnum - (s.headD 0 + t)) + 10 * valRow (subPass false mrest s.tail 0).1 := rfl
        rw [hv1, hv2, htake, hlen2]
        rcases Nat.le_one_iff_eq_zero_or_eq_one.mp ihb with hb | hb <;>
          rw [hb] at ihval ⊢ <;> omega

/-- The borrow bit of a zero-takeover pass decides the magnitude comparison
with the consumed part of the subtrahend. -/
theorem subPass_borrow_iff (m s : List Nat) (hm : ∀ d ∈ m, d ≤ 9) (hs : ∀ d ∈ s, d ≤ 9) :
    ((subPass false m s 0).2 = 1 ↔ valRow m < valRow (s.take m.length)) ∧
    ((subPass false m s 0).2 = 0 ↔ valRow (s.take m.length) ≤ valRow m) := by
  obtain ⟨hlen, hdig, hb, hval⟩ := subPass_spec m s 0 hm hs (by omega)
  have hvlt : valRow (subPass false m s 0).1 < 10 ^ m.length := by
    rw [← hlen]
    exact valRow_lt _ hdig
  constructor
  · constructor
    · intro h1
      rw [h1] at hval
      omega
    · intro h2
      rcases Nat.le_one_iff_eq_zero_or_eq_one.mp hb with h0 | h1
      · rw [h0] at hval
        omega
      · exact h1
  · constructor
    · intro h0
      rw [h0] at hval
      omega
    · intro h2
      rcases Nat.le_one_iff_eq_zero_or_eq_one.mp hb with h0 | h1
      · exact h0
      · rw [h1] at hval
        omega

/-! ### The overrun-correction pass -/

theorem corrLoop_length (drow : List Nat) : ∀ (srow : List Nat) (t : Nat),
    srow.length ≤ drow.length → (corrLoop drow srow t).length = drow.length := by
  induction drow with
  | nil =>
    intro srow t hlen
    have hs : srow = [] := List.length_eq_zero.mp (by simpa using hlen)
    subst hs
    rfl
  | cons dnum drest ih =>
    intro srow t hlen
    cases srow with
    | nil => rfl
    | cons snum srest =>
      show ((ones (dnum + snum) t).1 :: corrLoop drest srest (ones (dnum + snum) t).2).length
        = drest.length + 1
      rw [List.length_cons, ih srest _ (by simpa using hlen)]

theorem corrLoop_digits (drow : List Nat) : ∀ (srow : List Nat) (t : Nat),
    (∀ d ∈ drow, d ≤ 9) → ∀ x ∈ corrLoop drow srow t, x ≤ 9 := by
  induction drow with
  | nil =>
    intro srow t _ x hx
    cases srow with
    | nil =>
      have he : corrLoop [] [] t = [] := rfl
      rw [he] at hx
      simp at hx
    | cons snum srest =>
      have he : corrLoop [] (snum :: srest) t = [] := rfl
      rw [he] at hx
      simp at hx
  | cons dnum drest ih =>
    intro srow t hd x hx
    cases srow with
    | nil => exact hd x hx
    | cons snum srest =>
      rcases List.mem_cons.mp hx with h | h
      · rw [h]
        exact ones_fst_le _ _
      · exact ih srest _ (fun d hd2 => hd d (by simp [hd2])) x h

/-! ### Truncation and shrinking -/

theorem truncate_leading_raw_eq (row : List Nat) (lead : Nat) :
    truncate_leading_raw row lead =
      row.take (row.length -
        (if row.length = (row.reverse.takeWhile (fun num => num == lead)).length
         then (row.reverse.takeWhile (fun num => num == lead)).length - 1
         else (row.reverse.takeWhile (fun num => num == lead)).length)) := rfl

theorem truncate_ne_nil (row : List Nat) (lead : Nat) (h : row ≠ []) :
    truncate_leading_raw row lead ≠ [] := by
  rw [truncate_leading_raw_eq]
  have hlen1 : 1 ≤ row.length := by
    cases row with
    | nil => exact absurd rfl h
    | cons a as => simp
  have hwle : (row.reverse.takeWhile (fun num => num == lead)).length ≤ row.length := by
    have hsplit := congrArg List.length
      (List.takeWhile_append_dropWhile (fun num => num == lead) row.reverse)
    rw [List.length_append, List.length_reverse] at hsplit
    omega
  intro hc
  rw [List.take_eq_nil_iff] at hc
  rcases hc with hc | hc
  · by_cases hall : row.length = (row.reverse.takeWhile (fun num => num == lead)).length
    · rw [if_pos hall] at hc
      omega
    · rw [if_neg hall] at hc
      omega
  · exact h hc

theorem truncate_mem (row : List Nat) (lead : Nat) :
    ∀ x ∈ truncate_leading_raw row lead, x ∈ row := by
  intro x hx
  exact List.mem_of_mem_take hx

/-- Shrinking a non-empty digit row yields a valid row of the same value. -/
theorem shrink_spec (row : List Nat) (h : row ≠ []) (hd : ∀ x ∈ row, x ≤ 9) :
    ValidRow (shrink_to_fit_raw row) ∧ valRow (shrink_to_fit_raw row) = valRow row := by
  unfold shrink_to_fit_raw
  rw [truncate_leading_raw_eq]
  have hsplit := List.takeWhile_append_dropWhile (fun num => num == (0:Nat)) row.reverse
  have hwlen : (row.reverse.takeWhile (fun num => num == (0:Nat))).length +
      (row.reverse.dropWhile (fun num => num == (0:Nat))).length = row.length := by
    have := congrArg List.length hsplit
    rw [List.length_append, List.length_reverse] at this
    omega
  have hwzero : ∀ x ∈ row.reverse.takeWhile (fun num => num == (0:Nat)), x = 0 := by
    intro x hx
    have := List.mem_takeWhile_imp hx
    simpa using this
  have hlen1 : 1 ≤ row.length := by
    cases row with
    | nil => exact absurd rfl h
    | cons a as => simp
  by_cases hall : row.length = (row.reverse.takeWhile (fun num => num == (0:Nat))).length
  · rw [if_pos hall]
    have hallzero : ∀ x ∈ row, x = 0 := by
      intro x hx
      have hdrop : (row.reverse.dropWhile (fun num => num == (0:Nat))).length = 0 := by omega
      have hdropnil : row.reverse.dropWhile (fun num => num == (0:Nat)) = [] :=
        List.length_eq_zero.mp hdrop
      rw [hdropnil, List.append_nil] at hsplit
      have hxrev : x ∈ row.reverse.takeWhile (fun num => num == (0:Nat)) := by
        rw [hsplit]
        exact List.mem_reverse.mpr hx
      exact hwzero x hxrev
    have htake1 : row.length - ((row.reverse.takeWhile (fun num => num == (0:Nat))).length - 1)
        = 1 := by omega
    rw [htake1]
    obtain ⟨a, as, rfl⟩ := List.exists_cons_of_ne_nil h
    have ha0 : a = 0 := hallzero a (by simp)
    subst ha0
    refine ⟨⟨by simp, by simp, fun _ => rfl⟩, ?_⟩
    show valRow [0] = valRow (0 :: as)
    have hv0 : valRow [0] = 0 := rfl
    have hv1 : valRow (0 :: as) = 0 + 10 * valRow as := rfl
    have hasz : valRow as = 0 := by
      rw [valRow_eq_zero_iff]
      intro d hd2
      exact hallzero d (by simp [hd2])
    rw [hv0, hv1, hasz]
  · rw [if_neg hall]
    have hwlt : (row.reverse.takeWhile (fun num => num == (0:Nat))).length < row.length := by
      have hle : (row.reverse.takeWhile (fun num => num == (0:Nat))).length ≤ row.length := by
        omega
      omega
    set W := row.reverse.takeWhile (fun num => num == (0:Nat)) with hW
    set R := row.reverse.dropWhile (fun num => num == (0:Nat)) with hR
    have hrow : row = R.reverse ++ W.reverse := by
      have h1 : row.reverse.reverse = (W ++ R).reverse := congrArg List.reverse hsplit.symm
      rw [List.reverse_reverse, List.reverse_append] at h1
      exact h1
    have hRlen : R.reverse.length = row.length - W.length := by
      rw [List.length_reverse]
      omega
    have htak : row.take (row.length - W.length) = R.reverse := by
      have hlen' : row.length - W.length = R.reverse.length := hRlen.symm
      rw [hlen']
      conv_lhs => rw [hrow]
      exact List.take_left R.reverse W.reverse
    rw [htak]
    have hRne : R ≠ [] := by
      intro hc
      have h0 : R.length = 0 := by rw [hc]; rfl
      omega
    have hRheadne : ((R.head hRne : Nat) == (0:Nat)) = false :=
      List.head_dropWhile_not (fun num => num == (0:Nat)) row.reverse hRne
    have hWzeroval : valRow W.reverse = 0 := by
      rw [valRow_eq_zero_iff]
      intro d hd2
      exact hwzero d (List.mem_reverse.mp hd2)
    constructor
    · refine ⟨by simp [hRne], ?_, ?_⟩
      · intro d hd2
        refine hd d ?_
        rw [hrow]
        exact List.mem_append_left _ hd2
      · intro hlast
        exfalso
        rw [List.getLast?_reverse] at hlast
        rw [List.head?_eq_head hRne] at hlast
        have h0 : R.head hRne = 0 := by
          injection hlast
        rw [h0] at hRheadne
        simp at hRheadne
    · rw [hrow, valRow_append, hWzeroval]
      simp

/-! ### The scaled product -/

theorem valRow_productLoop (mpler : Nat) (mcand : List Nat) : ∀ t,
    valRow (productLoop mpler mcand t) = mpler * valRow mcand + t := by
  induction mcand with
  | nil =>
    intro t
    by_cases ht : t ≠ 0
    · show valRow (if t ≠ 0 then [t] else []) = mpler * valRow [] + t
      rw [if_pos ht]
      show t + 10 * valRow [] = mpler * valRow [] + t
      show t + 10 * 0 = mpler * 0 + t
      ring
    · show valRow (if t ≠ 0 then [t] else []) = mpler * valRow [] + t
      rw [if_neg ht]
      push_neg at ht
      subst ht
      show (0:Nat) = mpler * 0 + 0
      ring
  | cons num rest ih =>
    intro t
    show valRow ((ones (mpler * num) t).1 :: productLoop mpler rest (ones (mpler * num) t).2)
      = mpler * valRow (num :: rest) + t
    have hv : valRow ((ones (mpler * num) t).1 ::
        productLoop mpler rest (ones (mpler * num) t).2) =
        (ones (mpler * num) t).1 + 10 * valRow (productLoop mpler rest (ones (mpler * num) t).2)
      := rfl
    rw [hv, ih]
    have hs := ones_split (mpler * num) t
    have hv2 : valRow (num :: rest) = num + 10 * valRow rest := rfl
    rw [hv2]
    nlinarith [hs]

theorem valRow_product (mpler : Nat) (mcand : List Nat) :
    valRow (product mpler mcand) = mpler * valRow mcand := by
  unfold product
  rw [valRow_productLoop]
  omega

theorem digits_productLoop (mpler : Nat) (hm : mpler ≤ 9) (mcand : List Nat)
    (hc : ∀ d ∈ mcand, d ≤ 9) : ∀ t, t ≤ 8 → ∀ d ∈ productLoop mpler mcand t, d ≤ 9 := by
  induction mcand with
  | nil =>
    intro t ht d hd
    by_cases h0 : t ≠ 0
    · rw [show productLoop mpler [] t = if t ≠ 0 then [t] else [] from rfl, if_pos h0] at hd
      rw [List.mem_singleton] at hd
      omega
    · rw [show productLoop mpler [] t = if t ≠ 0 then [t] else [] from rfl, if_neg h0] at hd
      simp at hd
  | cons num rest ih =>
    intro t ht d hd
    have hnum : num ≤ 9 := hc num (by simp)
    rcases List.mem_cons.mp hd with h | h
    · rw [h]
      exact ones_fst_le _ _
    · refine ih (fun x hx => hc x (by simp [hx])) (ones (mpler * num) t).2 ?_ d h
      rw [ones_snd]
      have : mpler * num ≤ 81 := Nat.mul_le_mul hm hnum
      omega

theorem digits_product (mpler : Nat) (hm : mpler ≤ 9) (mcand : List Nat)
    (hc : ∀ d ∈ mcand, d ≤ 9) : ∀ d ∈ product mpler mcand, d ≤ 9 :=
  digits_productLoop mpler hm mcand hc 0 (by omega)

theorem length_productLoop (mpler : Nat) (mcand : List Nat) : ∀ t,
    mcand.length ≤ (productLoop mpler mcand t).length := by
  induction mcand with
  | nil =>
    intro t
    simp
  | cons num rest ih =>
    intro t
    show (num :: rest).length ≤ ((ones (mpler * num) t).1 ::
      productLoop mpler rest (ones (mpler * num) t).2).length
    rw [List.length_cons, List.length_cons]
    have := ih (ones (mpler * num) t).2
    omega

theorem product_ne_nil (mpler : Nat) (mcand : List Nat) (h : mcand ≠ []) :
    product mpler mcand ≠ [] := by
  intro hc
  have h1 := length_productLoop mpler mcand 0
  rw [show productLoop mpler mcand 0 = product mpler mcand from rfl, hc] at h1
  have h2 : mcand.length = 0 := by simpa using h1
  exact h (List.length_eq_zero.mp h2)

/-! ### Lengths of the self-addend loop -/

theorem length_carryInto_ge (s : List Nat) : ∀ t, s.length ≤ (carryInto s t).length := by
  induction s with
  | nil =>
    intro t
    simp
  | cons x xs ih =>
    intro t
    by_cases ht : t = 0
    · subst ht
      rw [carryInto_zero]
    · rw [carryInto_cons _ _ _ ht]
      rw [List.length_cons, List.length_cons]
      have := ih (ones x t).2
      omega

theorem length_addInto_ge (a1 : List Nat) : ∀ (s : List Nat) (t : Nat),
    a1.length ≤ (addInto a1 s t).length ∧ s.length ≤ (addInto a1 s t).length := by
  induction a1 with
  | nil =>
    intro s t
    exact ⟨by simp, length_carryInto_ge s t⟩
  | cons d ds ih =>
    intro s t
    have hrec := ih s.tail (ones (s.headD 0 + d) t).2
    have hlen : (addInto (d :: ds) s t).length =
        (addInto ds s.tail (ones (s.headD 0 + d) t).2).length + 1 := by
      show ((ones (s.headD 0 + d) t).1 ::
        addInto ds s.tail (ones (s.headD 0 + d) t).2).length = _
      rw [List.length_cons]
    constructor
    · rw [List.length_cons, hlen]
      omega
    · rw [hlen]
      cases s with
      | nil => simp
      | cons z zs =>
        have htl : ((z :: zs).tail).length = zs.length := rfl
        rw [List.length_cons]
        omega

/-! ### The shared multiplication and power engine -/

theorem muladdGo_spec (mcand : List Nat) (hmc : ∀ d ∈ mcand, d ≤ 9) (hmcne : mcand ≠ []) :
    ∀ (mp : List Nat) (offset : Nat) (i_sum : List Nat), (∀ d ∈ mp, d ≤ 9) →
    (∀ d ∈ i_sum, d ≤ 9) → offset ≤ i_sum.length →
    (∀ d ∈ muladdGo mcand mp offset i_sum, d ≤ 9) ∧
    i_sum.length ≤ (muladdGo mcand mp offset i_sum).length ∧
    (mp ≠ [] → offset + 1 ≤ (muladdGo mcand mp offset i_sum).length) ∧
    valRow (muladdGo mcand mp offset i_sum) =
      valRow i_sum + 10 ^ offset * (valRow mp * valRow mcand) := by
  intro mp
  induction mp with
  | nil =>
    intro offset i_sum _ hsum _
    refine ⟨hsum, le_refl _, by simp, ?_⟩
    show valRow i_sum = valRow i_sum + 10 ^ offset * (valRow [] * valRow mcand)
    show valRow i_sum = valRow i_sum + 10 ^ offset * (0 * valRow mcand)
    ring
  | cons mnum rest ih =>
    intro offset i_sum hmp hsum hoff
    have hmn : mnum ≤ 9 := hmp mnum (by simp)
    have hmp' : ∀ d ∈ rest, d ≤ 9 := fun d hd => hmp d (by simp [hd])
    have hstep : muladdGo mcand (mnum :: rest) offset i_sum =
        muladdGo mcand rest (offset + 1)
          (addition (product mnum mcand) none i_sum offset) := rfl
    have haddeq := addition_none_eq (product mnum mcand) i_sum offset
    have hproddig : ∀ d ∈ product mnum mcand, d ≤ 9 := digits_product mnum hmn mcand hmc
    have hdropdig : ∀ d ∈ i_sum.drop offset, d ≤ 9 :=
      fun d hd => hsum d (List.mem_of_mem_drop hd)
    have htakedig : ∀ d ∈ i_sum.take offset, d ≤ 9 :=
      fun d hd => hsum d (List.mem_of_mem_take hd)
    have hsumdig : ∀ d ∈ addition (product mnum mcand) none i_sum offset, d ≤ 9 := by
      rw [haddeq]
      intro d hd
      rcases List.mem_append.mp hd with h | h
      · exact htakedig d h
      · exact digits_addInto (product mnum mcand) (i_sum.drop offset) 0 hdropdig d h
    have htklen : (i_sum.take offset).length = offset := by
      rw [List.length_take]
      omega
    have hsumlen : (addition (product mnum mcand) none i_sum offset).length =
        offset + (addInto (product mnum mcand) (i_sum.drop offset) 0).length := by
      rw [haddeq, List.length_append, htklen]
    have haddlen := length_addInto_ge (product mnum mcand) (i_sum.drop offset) 0
    have hprodlen : 1 ≤ (product mnum mcand).length := by
      have hne := product_ne_nil mnum mcand hmcne
      cases hp : product mnum mcand with
      | nil => exact absurd hp hne
      | cons a as => simp
    have hsumlen1 : offset + 1 ≤ (addition (product mnum mcand) none i_sum offset).length := by
      rw [hsumlen]
      omega
    have hsumlen2 : i_sum.length ≤ (addition (product mnum mcand) none i_sum offset).length := by
      rw [hsumlen]
      have hdl : (i_sum.drop offset).length = i_sum.length - offset := by
        rw [List.length_drop]
      omega
    have hsumval : valRow (addition (product mnum mcand) none i_sum offset) =
        valRow i_sum + 10 ^ offset * (mnum * valRow mcand) := by
      rw [haddeq, valRow_append, htklen, valRow_addInto, valRow_product]
      have hrecon : valRow i_sum = valRow (i_sum.take offset) +
          10 ^ offset * valRow (i_sum.drop offset) := by
        conv_lhs => rw [← List.take_append_drop offset i_sum]
        rw [valRow_append, htklen]
      rw [hrecon]
      ring
    obtain ⟨ihdig, ihmono, _, ihval⟩ := ih (offset + 1)
      (addition (product mnum mcand) none i_sum offset) hmp' hsumdig (by omega)
    rw [hstep]
    refine ⟨ihdig, by omega, fun _ => by omega, ?_⟩
    rw [ihval, hsumval]
    have hvmp : valRow (mnum :: rest) = mnum + 10 * valRow rest := rfl
    rw [hvmp, pow_succ]
    ring

theorem mulmulLoop_spec (mpler : List Nat) (hmp : ∀ d ∈ mpler, d ≤ 9) (hmpne : mpler ≠ []) :
    ∀ (times : Nat) (mcand : List Nat), (∀ d ∈ mcand, d ≤ 9) → mcand ≠ [] →
    (∀ d ∈ mulmulLoop mpler times mcand, d ≤ 9) ∧ mulmulLoop mpler times mcand ≠ [] ∧
    valRow (mulmulLoop mpler times mcand) = valRow mcand * valRow mpler ^ max times 1 := by
  intro times
  induction times using Nat.strong_induction_on with
  | _ times ihT =>
    intro mcand hmc hmcne
    have hpass := muladdGo_spec mcand hmc hmcne mpler 0 [] hmp (by simp) (by simp)
    obtain ⟨pdig, _, pne, pval⟩ := hpass
    have hpassne : muladdGo mcand mpler 0 [] ≠ [] := by
      intro hc
      have := pne hmpne
      rw [hc] at this
      simp at this
    have hpassval : valRow (muladdGo mcand mpler 0 []) = valRow mcand * valRow mpler := by
      rw [pval]
      show valRow [] + 10 ^ 0 * (valRow mpler * valRow mcand) = _
      show (0:Nat) + 10 ^ 0 * (valRow mpler * valRow mcand) = _
      ring
    match times with
    | 0 =>
      refine ⟨pdig, hpassne, ?_⟩
      rw [show mulmulLoop mpler 0 mcand = muladdGo mcand mpler 0 [] from rfl, hpassval]
      simp
    | 1 =>
      refine ⟨pdig, hpassne, ?_⟩
      rw [show mulmulLoop mpler 1 mcand = muladdGo mcand mpler 0 [] from rfl, hpassval]
      simp
    | (t + 2) =>
      have hrec := ihT (t + 1) (by omega) (muladdGo mcand mpler 0 []) pdig hpassne
      obtain ⟨rdig, rne, rval⟩ := hrec
      refine ⟨rdig, rne, ?_⟩
      rw [show mulmulLoop mpler (t + 2) mcand =
        mulmulLoop mpler (t + 1) (muladdGo mcand mpler 0 []) from rfl]
      rw [rval, hpassval]
      have h1 : max (t + 1) 1 = t + 1 := by omega
      have h2 : max (t + 2) 1 = t + 2 := by omega
      rw [h1, h2, pow_succ]
      ring

/-- `mulmul` computes the canonical row of `valRow row2 * valRow row1 ^ times`
(for the `times ≥ 1` calls the crate makes). -/
theorem mulmul_eq_canonical (row1 row2 : List Nat) (times : Nat) (h1 : ∀ d ∈ row1, d ≤ 9)
    (h2 : ∀ d ∈ row2, d ≤ 9) (hne1 : row1 ≠ []) (hne2 : row2 ≠ []) (ht : 1 ≤ times) :
    mulmul row1 row2 times = new_from_num (valRow row2 * valRow row1 ^ times) := by
  obtain ⟨ldig, lne, lval⟩ := mulmulLoop_spec row1 h1 hne1 times row2 h2 hne2
  unfold mulmul new_from_num
  rw [PlacesRow.mk.injEq]
  obtain ⟨hvalid, hval⟩ := shrink_spec (mulmulLoop row1 times row2) lne ldig
  have hcanon := canonical_of_valid _ hvalid
  rw [hval, lval] at hcanon
  rw [← hcanon]
  have hmax : max times 1 = times := by omega
  rw [hmax]

/-! ### The ratio row: repeated increments stay canonical -/

theorem new_from_num_row_one : new_from_num_row 1 = [1] := by
  rw [new_from_num_row_eq]
  norm_num

theorem carryInto_one_nil : carryInto [] 1 = [1] := by
  rw [carryInto_nil _ one_ne_zero]
  have he : ones 0 1 = (1, 0) := by rw [ones_eq]
  rw [he, carryInto_zero]

theorem carryInto_canon (w : Nat) : carryInto (new_from_num_row w) 1 = new_from_num_row (w + 1) := by
  induction w using Nat.strong_induction_on with
  | _ w ih =>
    rw [new_from_num_row_eq]
    by_cases h0 : w / 10 = 0
    · rw [if_pos h0]
      by_cases h8 : w % 10 ≤ 8
      · rw [carryInto_cons _ _ _ one_ne_zero]
        have he : ones (w % 10) 1 = (w % 10 + 1, 0) := by
          rw [ones_eq]
          rw [Prod.mk.injEq]
          omega
        rw [he, carryInto_zero]
        rw [new_from_num_row_eq]
        have hd : (w + 1) / 10 = 0 := by omega
        rw [if_pos hd]
        have hm : (w + 1) % 10 = w % 10 + 1 := by omega
        rw [hm]
      · have h9 : w % 10 = 9 := by omega
        have hw : w = 9 := by omega
        subst hw
        rw [carryInto_cons _ _ _ one_ne_zero]
        have he : ones (9 % 10) 1 = (0, 1) := by rw [ones_eq]
        rw [he, carryInto_one_nil]
        rw [new_from_num_row_eq]
        norm_num
        exact new_from_num_row_one.symm
    · rw [if_neg h0]
      by_cases h8 : w % 10 ≤ 8
      · rw [carryInto_cons _ _ _ one_ne_zero]
        have he : ones (w % 10) 1 = (w % 10 + 1, 0) := by
          rw [ones_eq, Prod.mk.injEq]
          omega
        rw [he, carryInto_zero]
        rw [new_from_num_row_eq (w + 1)]
        have hd : (w + 1) / 10 = w / 10 := by omega
        have hnz : ¬((w + 1) / 10 = 0) := by omega
        rw [if_neg hnz]
        have hm : (w + 1) % 10 = w % 10 + 1 := by omega
        rw [hm, hd]
      · have h9 : w % 10 = 9 := by omega
        rw [carryInto_cons _ _ _ one_ne_zero]
        have he : ones (w % 10) 1 = (0, 1) := by
          rw [ones_eq, Prod.mk.injEq]
          omega
        rw [he, ih (w / 10) (Nat.div_lt_self (by omega) (by norm_num))]
        rw [new_from_num_row_eq (w + 1)]
        have hd : (w + 1) / 10 = w / 10 + 1 := by omega
        have hnz : ¬((w + 1) / 10 = 0) := by omega
        rw [if_neg hnz]
        have hm : (w + 1) % 10 = 0 := by omega
        rw [hm, hd]

/-- Incrementing a canonical row by the `addition`-based `ratio += 1` step
keeps it canonical. -/
theorem increment_canon (k : Nat) :
    addition [1] none (new_from_num_row k) 0 = new_from_num_row (k + 1) := by
  rw [addition_none_eq]
  rw [List.take_zero, List.drop_zero, List.nil_append]
  show (ones ((new_from_num_row k).headD 0 + 1) 0).1 ::
    carryInto (new_from_num_row k).tail (ones ((new_from_num_row k).headD 0 + 1) 0).2 = _
  have hhead : (new_from_num_row k).headD 0 = k % 10 := by
    rw [new_from_num_row_eq]
    by_cases h0 : k / 10 = 0
    · rw [if_pos h0]
      rfl
    · rw [if_neg h0]
      rfl
  rw [hhead]
  by_cases h8 : k % 10 ≤ 8
  · have he : ones (k % 10 + 1) 0 = (k % 10 + 1, 0) := by
      rw [ones_eq, Prod.mk.injEq]
      omega
    rw [he, carryInto_zero]
    rw [new_from_num_row_eq k, new_from_num_row_eq (k + 1)]
    by_cases h0 : k / 10 = 0
    · have hd : (k + 1) / 10 = 0 := by omega
      rw [if_pos h0, if_pos hd]
      have hm : (k + 1) % 10 = k % 10 + 1 := by omega
      rw [hm]
      rfl
    · have hd : (k + 1) / 10 = k / 10 := by omega
      have hnz : ¬((k + 1) / 10 = 0) := by omega
      rw [if_neg h0, if_neg hnz]
      have hm : (k + 1) % 10 = k % 10 + 1 := by omega
      rw [hm, hd]
      rfl
  · have h9 : k % 10 = 9 := by omega
    have he : ones (k % 10 + 1) 0 = (0, 1) := by
      rw [ones_eq, Prod.mk.injEq]
      omega
    rw [he]
    rw [new_from_num_row_eq k]
    by_cases h0 : k / 10 = 0
    · rw [if_pos h0]
      show 0 :: carryInto [] 1 = _
      rw [carryInto_one_nil]
      have hk : k = 9 := by omega
      subst hk
      rw [new_from_num_row_eq]
      norm_num
      exact new_from_num_row_one.symm
    · rw [if_neg h0]
      show 0 :: carryInto (new_from_num_row (k / 10)) 1 = _
      rw [carryInto_canon]
      rw [new_from_num_row_eq (k + 1)]
      have hd : (k + 1) / 10 = k / 10 + 1 := by omega
      have hnz : ¬((k + 1) / 10 = 0) := by omega
      rw [if_neg hnz]
      have hm : (k + 1) % 10 = 0 := by omega
      rw [hm, hd]

/-! ### Unfolding `substraction` and the remainder loop -/

theorem substraction_eq (m s : List Nat) (rem : Bool) :
    substraction m s rem =
      (shrink_to_fit_raw
        (if (subPass false m s 0).2 = 1
         then (truncate_leading_raw (corrLoop (subPass false m s 0).1 s 0) 9, ([0] : List Nat))
         else if rem then substractionLoop s rem (valRow m + 1) (subPass false m s 0).1
             (addition [1] none [0] 0)
           else ((subPass false m s 0).1, addition [1] none [0] 0)).1,
       (if (subPass false m s 0).2 = 1
        then (truncate_leading_raw (corrLoop (subPass false m s 0).1 s 0) 9, ([0] : List Nat))
        else if rem then substractionLoop s rem (valRow m + 1) (subPass false m s 0).1
            (addition [1] none [0] 0)
          else ((subPass false m s 0).1, addition [1] none [0] 0)).2) := rfl

theorem substractionLoop_zero_eq (s : List Nat) (rem : Bool) (d r : List Nat) :
    substractionLoop s rem 0 d r = (d, r) := rfl

theorem substractionLoop_succ_eq (s : List Nat) (rem : Bool) (fuel : Nat) (d r : List Nat) :
    substractionLoop s rem (fuel + 1) d r =
      (if (subPass true d s 0).2 = 1
       then (truncate_leading_raw (corrLoop (subPass true d s 0).1 s 0) 9, r)
       else if rem then substractionLoop s rem fuel (subPass true d s 0).1
           (addition [1] none r 0)
         else ((subPass true d s 0).1, addition [1] none r 0)) := rfl

/-- The remainder loop keeps the difference a digit row of the minuend's
length-class and the ratio canonical. -/
theorem substractionLoop_valid (s : List Nat) (hs : ∀ x ∈ s, x ≤ 9) :
    ∀ (fuel : Nat) (d r : List Nat), (∀ x ∈ d, x ≤ 9) → d ≠ [] → s.length ≤ d.length →
    (∃ k, r = new_from_num_row k) →
    (∀ x ∈ (substractionLoop s true fuel d r).1, x ≤ 9) ∧
    (substractionLoop s true fuel d r).1 ≠ [] ∧
    (∃ k, (substractionLoop s true fuel d r).2 = new_from_num_row k) := by
  intro fuel
  induction fuel with
  | zero =>
    intro d r hd hdne hlen hr
    rw [substractionLoop_zero_eq]
    exact ⟨hd, hdne, hr⟩
  | succ fuel ih =>
    intro d r hd hdne hlen hr
    rw [substractionLoop_succ_eq, subPass_true_eq]
    obtain ⟨plen, pdig, _, _⟩ := subPass_spec d s 0 hd hs (by omega)
    have hdlen : 1 ≤ d.length := by
      cases d with
      | nil => exact absurd rfl hdne
      | cons a as => simp
    by_cases hb : (subPass false d s 0).2 = 1
    · rw [if_pos hb]
      have hcorrne : corrLoop (subPass false d s 0).1 s 0 ≠ [] := by
        have hclen := corrLoop_length (subPass false d s 0).1 s 0 (by omega)
        intro hc
        rw [hc] at hclen
        simp at hclen
        omega
      have hcorrdig := corrLoop_digits (subPass false d s 0).1 s 0 pdig
      refine ⟨?_, truncate_ne_nil _ _ hcorrne, hr⟩
      intro x hx
      exact hcorrdig x (truncate_mem _ _ x hx)
    · rw [if_neg hb]
      rw [if_pos rfl]
      obtain ⟨k, hk⟩ := hr
      have hinc : addition [1] none r 0 = new_from_num_row (k + 1) := by
        rw [hk, increment_canon]
      refine ih (subPass false d s 0).1 (addition [1] none r 0) pdig ?_ (by omega) ⟨k + 1, hinc⟩
      intro hc
      rw [hc] at plen
      simp at plen
      omega

/-- `substraction` in remainder mode returns a valid remainder row and a
canonical ratio row. -/
theorem substraction_true_valid (m s : List Nat) (hm : ∀ x ∈ m, x ≤ 9)
    (hs : ∀ x ∈ s, x ≤ 9) (hmne : m ≠ []) (hlen : s.length ≤ m.length) :
    ValidRow (substraction m s true).1 ∧
    ∃ k, (substraction m s true).2 = new_from_num_row k := by
  rw [substraction_eq]
  obtain ⟨plen, pdig, _, _⟩ := subPass_spec m s 0 hm hs (by omega)
  have hmlen : 1 ≤ m.length := by
    cases m with
    | nil => exact absurd rfl hmne
    | cons a as => simp
  have hinc0 : addition [1] none [0] 0 = new_from_num_row 1 := by
    have h0 : ([0] : List Nat) = new_from_num_row 0 := by
      rw [new_from_num_row_eq]
      norm_num
    rw [h0, increment_canon]
  by_cases hb : (subPass false m s 0).2 = 1
  · rw [if_pos hb]
    have hcorrne : corrLoop (subPass false m s 0).1 s 0 ≠ [] := by
      have hclen := corrLoop_length (subPass false m s 0).1 s 0 (by omega)
      intro hc
      rw [hc] at hclen
      simp at hclen
      omega
    have hcorrdig := corrLoop_digits (subPass false m s 0).1 s 0 pdig
    have htne := truncate_ne_nil (corrLoop (subPass false m s 0).1 s 0) 9 hcorrne
    have htdig : ∀ x ∈ truncate_leading_raw (corrLoop (subPass false m s 0).1 s 0) 9, x ≤ 9 :=
      fun x hx => hcorrdig x (truncate_mem _ _ x hx)
    refine ⟨(shrink_spec _ htne htdig).1, ⟨0, ?_⟩⟩
    show ([0] : List Nat) = new_from_num_row 0
    rw [new_from_num_row_eq]
    norm_num
  · rw [if_neg hb, if_pos rfl]
    have hpne : (subPass false m s 0).1 ≠ [] := by
      intro hc
      rw [hc] at plen
      simp at plen
      omega
    obtain ⟨ldig, lne, lratio⟩ := substractionLoop_valid s hs (valRow m + 1)
      (subPass false m s 0).1 (addition [1] none [0] 0) pdig hpne (by omega) ⟨1, hinc0⟩
    exact ⟨(shrink_spec _ lne ldig).1, lratio⟩

/-- `substraction` in single-difference mode returns a valid difference row. -/
theorem substraction_false_valid (m s : List Nat) (hm : ∀ x ∈ m, x ≤ 9)
    (hs : ∀ x ∈ s, x ≤ 9) (hmne : m ≠ []) (hlen : s.length ≤ m.length) :
    ValidRow (substraction m s false).1 := by
  rw [substraction_eq]
  obtain ⟨plen, pdig, _, _⟩ := subPass_spec m s 0 hm hs (by omega)
  have hmlen : 1 ≤ m.length := by
    cases m with
    | nil => exact absurd rfl hmne
    | cons a as => simp
  by_cases hb : (subPass false m s 0).2 = 1
  · rw [if_pos hb]
    have hcorrne : corrLoop (subPass false m s 0).1 s 0 ≠ [] := by
      have hclen := corrLoop_length (subPass false m s 0).1 s 0 (by omega)
      intro hc
      rw [hc] at hclen
      simp at hclen
      omega
    have hcorrdig := corrLoop_digits (subPass false m s 0).1 s 0 pdig
    have htne := truncate_ne_nil (corrLoop (subPass false m s 0).1 s 0) 9 hcorrne
    have htdig : ∀ x ∈ truncate_leading_raw (corrLoop (subPass false m s 0).1 s 0) 9, x ≤ 9 :=
      fun x hx => hcorrdig x (truncate_mem _ _ x hx)
    exact (shrink_spec _ htne htdig).1
  · rw [if_neg hb]
    rw [show (if false then substractionLoop s false (valRow m + 1) (subPass false m s 0).1
        (addition [1] none [0] 0)
      else ((subPass false m s 0).1, addition [1] none [0] 0)) =
        ((subPass false m s 0).1, addition [1] none [0] 0) from rfl]
    have hpne : (subPass false m s 0).1 ≠ [] := by
      intro hc
      rw [hc] at plen
      simp at plen
      omega
    exact (shrink_spec _ hpne pdig).1

/-- In single-difference mode on a strictly greater valid minuend, the first
pass has no final borrow and the shrunk difference carries the exact value. -/
theorem substraction_false_val (m s : List Nat) (hm : ∀ x ∈ m, x ≤ 9)
    (hs : ∀ x ∈ s, x ≤ 9) (hlen : s.length ≤ m.length) (hval : valRow s ≤ valRow m) :
    valRow (substraction m s false).1 + valRow s = valRow m := by
  obtain ⟨plen, pdig, pb, pval⟩ := subPass_spec m s 0 hm hs (by omega)
  have htake : s.take m.length = s := List.take_of_length_le hlen
  rw [htake] at pval
  have hb0 : (subPass false m s 0).2 = 0 := by
    rcases Nat.le_one_iff_eq_zero_or_eq_one.mp pb with h0 | h1
    · exact h0
    · rw [h1] at pval
      have hvlt : valRow (subPass false m s 0).1 < 10 ^ m.length := by
        rw [← plen]
        exact valRow_lt _ pdig
      have hm10 : valRow m < 10 ^ m.length := valRow_lt _ hm
      omega
  rw [substraction_eq, if_neg (by omega)]
  rw [show (if false then substractionLoop s false (valRow m + 1) (subPass false m s 0).1
      (addition [1] none [0] 0)
    else ((subPass false m s 0).1, addition [1] none [0] 0)) =
      ((subPass false m s 0).1, addition [1] none [0] 0) from rfl]
  by_cases hmne : m = []
  · subst hmne
    have hs0 : s = [] := List.length_eq_zero.mp (by simpa using hlen)
    subst hs0
    rfl
  · have hshr := shrink_spec (subPass false m s 0).1 (by
      intro hc
      rw [hc] at plen
      have : m.length = 0 := by simpa using plen.symm
      exact hmne (List.length_eq_zero.mp this)) pdig
    show valRow (shrink_to_fit_raw (subPass false m s 0).1) + valRow s = valRow m
    rw [hshr.2]
    rw [hb0] at pval
    omega

/-! ### `sub` and `divrem` unfoldings and correctness -/

theorem new_from_num_row_zero : new_from_num_row 0 = [0] := by
  rw [new_from_num_row_eq]
  norm_num

theorem sub_eq (x y : PlacesRow) :
    sub x y = if rel x y = Rel.Lesser then none
      else if rel x y = Rel.Equal then some ⟨[0]⟩
      else some ⟨(substraction x.row y.row false).1⟩ := rfl

theorem divrem_eq (n d : PlacesRow) :
    divrem n d = if d = zero then none
      else if rel n d = Rel.Lesser then some (zero, n)
      else if rel n d = Rel.Equal then some (⟨[1]⟩, zero)
      else some (⟨(substraction n.row d.row true).2⟩, ⟨(substraction n.row d.row true).1⟩) := rfl

/-- `sub` on valid rows: `none` exactly below the subtrahend, otherwise the
canonical row of the value difference. -/
theorem sub_eq_canonical (x y : PlacesRow) (hx : ValidRow x.row) (hy : ValidRow y.row) :
    (sub x y = none ↔ valRow x.row < valRow y.row) ∧
    (valRow y.row ≤ valRow x.row →
      sub x y = some (new_from_num (valRow x.row - valRow y.row))) := by
  obtain ⟨heq, hgt, hlt⟩ := rel_spec x y hx hy
  cases hr : rel x y with
  | Greater =>
    have hvgt : valRow y.row < valRow x.row := hgt.mp hr
    have hlen : y.row.length ≤ x.row.length := rel_greater_len x y hr
    have hsv := substraction_false_val x.row y.row hx.2.1 hy.2.1 hlen (le_of_lt hvgt)
    have hvd := substraction_false_valid x.row y.row hx.2.1 hy.2.1 hx.1 hlen
    constructor
    · rw [sub_eq, hr]
      simp only [reduceCtorEq, if_false]
      constructor
      · intro hc
        exact absurd hc (by simp)
      · intro hc
        omega
    · intro _
      rw [sub_eq, hr]
      simp only [reduceCtorEq, if_false]
      have hrow : (substraction x.row y.row false).1 =
          new_from_num_row (valRow x.row - valRow y.row) := by
        have hcan := canonical_of_valid _ hvd
        have hv2 : valRow (substraction x.row y.row false).1 =
            valRow x.row - valRow y.row := by omega
        rw [hv2] at hcan
        exact hcan.symm
      rw [hrow]
      rfl
  | Equal =>
    have hxy : x = y := heq.mp hr
    subst hxy
    constructor
    · rw [sub_eq, hr]
      simp only [reduceCtorEq, if_false, if_true]
      constructor
      · intro hc
        exact absurd hc (by simp)
      · intro hc
        omega
    · intro _
      rw [sub_eq, hr]
      simp only [reduceCtorEq, if_false, if_true]
      have h0 : valRow x.row - valRow x.row = 0 := by omega
      rw [h0]
      unfold new_from_num
      rw [new_from_num_row_zero]
  | Lesser =>
    have hv : valRow x.row < valRow y.row := hlt.mp hr
    constructor
    · rw [sub_eq, hr, if_pos rfl]
      simp [hv]
    · intro hc
      omega

/-! ### Constructor outputs are valid -/

theorem new_from_vec_valid (row : List Nat) (r0 : PlacesRow)
    (h : new_from_vec row = .ok r0) : ValidRow r0.row := by
  unfold new_from_vec at h
  by_cases hl : row.length = 0
  · rw [if_pos hl] at h
    exact absurd h (by simp)
  · rw [if_neg hl] at h
    cases hf : row.findIdx? (fun num => decide (9 < num)) with
    | some inx =>
      rw [hf] at h
      exact absurd h (by simp)
    | none =>
      rw [hf] at h
      have hrow : r0 = ⟨truncate_leading_raw row 0⟩ := by
        cases h
        rfl
      have hne : row ≠ [] := by
        intro hc
        rw [hc] at hl
        exact hl rfl
      have hdig : ∀ x ∈ row, x ≤ 9 := by
        intro x hx
        have := List.findIdx?_eq_none_iff.mp hf x hx
        simp at this
        omega
      have := (shrink_spec row hne hdig).1
      rw [hrow]
      exact this

theorem isDigit_toNat (c : Char) (h : c.isDigit = true) :
    48 ≤ c.toNat ∧ c.toNat ≤ 57 := by
  simp [Char.isDigit] at h
  obtain ⟨h1, h2⟩ := h
  exact ⟨h1, h2⟩

theorem isDigit_charToPlace_le (c : Char) (h : c.isDigit = true) :
    charToPlace c ≤ 9 := by
  obtain ⟨h1, h2⟩ := isDigit_toNat c h
  unfold charToPlace
  omega

theorem charToPlace_eq_zero (c : Char) (h : c.isDigit = true)
    (h0 : charToPlace c = 0) : c = '0' := by
  obtain ⟨h1, h2⟩ := isDigit_toNat c h
  unfold charToPlace at h0
  have hshow : c.val.toBitVec.toNat = ('0' : Char).val.toBitVec.toNat := by
    have hc : c.val.toBitVec.toNat = c.toNat := rfl
    have hz : ('0' : Char).val.toBitVec.toNat = 48 := by decide
    omega
  exact Char.eq_of_val_eq (UInt32.eq_of_toBitVec_eq (BitVec.eq_of_toNat_eq hshow))

/-- A successful run of the char loop: every consumed char was an ASCII
digit and the output is the digit translation of the input. -/
theorem fromCharsRev_ok (cs : List Char) : ∀ (inx : Nat) (row : List Nat),
    fromCharsRev cs inx = .ok row →
    row = cs.map charToPlace ∧ ∀ c ∈ cs, c.isDigit = true := by
  induction cs with
  | nil =>
    intro inx row h
    unfold fromCharsRev at h
    cases h
    simp
  | cons c cs ih =>
    intro inx row h
    unfold fromCharsRev at h
    by_cases hd : c.isDigit
    · rw [if_pos hd] at h
      cases hrec : fromCharsRev cs (inx - 1) with
      | ok rest =>
        rw [hrec] at h
        cases h
        obtain ⟨hmap, hall⟩ := ih (inx - 1) rest hrec
        refine ⟨by rw [List.map_cons, hmap], ?_⟩
        intro c' hc'
        rcases List.mem_cons.mp hc' with hc' | hc'
        · rw [hc']
          exact hd
        · exact hall c' hc'
      | error e =>
        rw [hrec] at h
        exact absurd h (by simp)
    · rw [if_neg hd] at h
      exact absurd h (by simp)

theorem new_from_str_valid (s : List Char) (r0 : PlacesRow)
    (h : new_from_str s = .ok r0) : ValidRow r0.row := by
  unfold new_from_str at h
  by_cases hl : s.length = 0
  · rw [if_pos hl] at h
    exact absurd h (by simp)
  · rw [if_neg hl] at h
    by_cases ht : (s.dropWhile (fun c => c == '0')).length = 0
    · rw [if_pos ht] at h
      have hr0 : r0 = ⟨[0]⟩ := by
        cases h
        rfl
      rw [hr0]
      show ValidRow [0]
      decide
    · rw [if_neg ht] at h
      cases hp : fromCharsRev (s.dropWhile (fun c => c == '0')).reverse s.length with
      | ok row =>
        rw [hp] at h
        have hr : r0 = ⟨row⟩ := by
          cases h
          rfl
        obtain ⟨hmap, hall⟩ := fromCharsRev_ok _ _ _ hp
        have htne : s.dropWhile (fun c => c == '0') ≠ [] := by
          intro hc
          rw [hc] at ht
          exact ht rfl
        refine hr ▸ ⟨?_, ?_, ?_⟩
        · show row ≠ []
          rw [hmap]
          simp only [ne_eq, List.map_eq_nil_iff, List.reverse_eq_nil_iff]
          exact htne
        · intro d hd
          rw [hmap] at hd
          obtain ⟨c, hc, hcd⟩ := List.mem_map.mp hd
          rw [← hcd]
          exact isDigit_charToPlace_le c (hall c hc)
        · intro hlast
          rw [hmap] at hlast
          rw [List.getLast?_map, List.getLast?_reverse] at hlast
          cases hh : (s.dropWhile (fun c => c == '0')).head? with
          | none =>
            rw [hh] at hlast
            exact absurd hlast (by simp)
          | some c0 =>
            rw [hh] at hlast
            have hc0 : charToPlace c0 = 0 := by
              simpa using hlast
            have hc0mem : c0 ∈ s.dropWhile (fun c => c == '0') :=
              List.mem_of_mem_head? hh
            have hc0dig : c0.isDigit = true := by
              refine hall c0 ?_
              simpa using hc0mem
            have hc0z : c0 = '0' := charToPlace_eq_zero c0 hc0dig hc0
            have hne0 : ((s.dropWhile (fun c => c == '0')).head htne == '0') = false :=
              List.head_dropWhile_not (fun c => c == '0') s htne
            have hhead : (s.dropWhile (fun c => c == '0')).head htne = c0 := by
              have h2 := List.head?_eq_head (l := s.dropWhile (fun c => c == '0')) htne
              rw [hh] at h2
              exact (Option.some.injEq _ _).mp h2.symm
            rw [hhead, hc0z] at hne0
            simp at hne0
      | error e =>
        rw [hp] at h
        exact absurd h (by simp)

/-! ### `to_number` is total on digit rows -/

theorem placeChar_digit (d : Nat) (h : d ≤ 9) :
    placeChar d = some (Nat.digitChar d) := by
  interval_cases d <;> rfl

theorem toNumberRev_digits (l : List Nat) (h : ∀ d ∈ l, d ≤ 9) :
    toNumberRev l = some (l.map Nat.digitChar) := by
  induction l with
  | nil => rfl
  | cons d rest ih =>
    unfold toNumberRev
    rw [placeChar_digit d (h d (by simp)), ih (fun x hx => h x (by simp [hx]))]
    rfl

theorem to_number_digits (row : List Nat) (h : ∀ d ∈ row, d ≤ 9) :
    to_number row = some (row.reverse.map Nat.digitChar) := by
  unfold to_number
  exact toNumberRev_digits _ (by simpa using h)

/-! ### Canonical rows are Mathlib's base-10 digit strings -/

theorem new_from_num_row_eq_digits (n : Nat) (h1 : 1 ≤ n) :
    new_from_num_row n = Nat.digits 10 n := by
  induction n using Nat.strong_induction_on with
  | _ n ih =>
    rw [new_from_num_row_eq]
    rw [Nat.digits_def' (by norm_num : 1 < 10) (by omega : 0 < n)]
    by_cases h0 : n / 10 = 0
    · rw [if_pos h0, h0]
      rw [Nat.digits_zero]
    · rw [if_neg h0]
      rw [ih (n / 10) (Nat.div_lt_self (by omega) (by norm_num)) (by omega)]

theorem to_number_new_from_num (n : Nat) :
    to_number (new_from_num n).row = some (decRender n) := by
  show to_number (new_from_num_row n) = some (decRender n)
  unfold decRender
  by_cases h0 : n = 0
  · subst h0
    rw [new_from_num_row_zero, if_pos rfl]
    rfl
  · rw [if_neg h0, new_from_num_row_eq_digits n (by omega)]
    rw [to_number_digits _ (fun d hd => by
      have := Nat.digits_lt_base (by norm_num) hd
      omega)]
    rw [List.map_reverse]

/-! ### Parsing back a rendered row -/

theorem digitChar_isDigit (d : Nat) (h : d ≤ 9) : (Nat.digitChar d).isDigit = true := by
  interval_cases d <;> decide

theorem charToPlace_digitChar (d : Nat) (h : d ≤ 9) : charToPlace (Nat.digitChar d) = d := by
  interval_cases d <;> decide

theorem digitChar_ne_zeroChar (d : Nat) (h1 : 1 ≤ d) (h9 : d ≤ 9) :
    Nat.digitChar d ≠ '0' := by
  interval_cases d <;> decide

theorem fromCharsRev_map_digitChar (l : List Nat) (h : ∀ d ∈ l, d ≤ 9) : ∀ inx,
    fromCharsRev (l.map Nat.digitChar) inx = .ok l := by
  induction l with
  | nil =>
    intro inx
    rfl
  | cons d ds ih =>
    intro inx
    show fromCharsRev (Nat.digitChar d :: ds.map Nat.digitChar) inx = _
    unfold fromCharsRev
    rw [if_pos (digitChar_isDigit d (h d (by simp)))]
    rw [ih (fun x hx => h x (by simp [hx])) (inx - 1)]
    rw [charToPlace_digitChar d (h d (by simp))]

theorem new_from_str_eq (s : List Char) :
    new_from_str s = if s.length = 0 then .error none
      else if (s.dropWhile (fun c => c == '0')).length = 0 then .ok ⟨[0]⟩
      else match fromCharsRev (s.dropWhile (fun c => c == '0')).reverse s.length with
        | .ok row => .ok ⟨row⟩
        | .error e => .error e := rfl

/-- Rendering a valid row and parsing the text back reconstructs the row. -/
theorem new_from_str_roundtrip (r : PlacesRow) (hv : ValidRow r.row) :
    new_from_str (r.row.reverse.map Nat.digitChar) = .ok r := by
  have hlen : (r.row.reverse.map Nat.digitChar).length = r.row.length := by simp
  have hrlen : 1 ≤ r.row.length := by
    cases hc : r.row with
    | nil => exact absurd hc hv.1
    | cons a as => simp
  rw [new_from_str_eq, if_neg (by omega)]
  by_cases hz : r.row = [0]
  · have hcs0 : r.row.reverse.map Nat.digitChar = ['0'] := by
      rw [hz]
      rfl
    rw [hcs0]
    have hdw : (['0'] : List Char).dropWhile (fun c => c == '0') = [] := rfl
    rw [hdw, if_pos (show ([] : List Char).length = 0 from rfl)]
    have : r = ⟨[0]⟩ := by
      cases r
      simp at hz
      rw [hz]
    rw [this]
  · obtain ⟨dl, hdl⟩ : ∃ dl, r.row.getLast? = some dl := by
      have h1 := List.getLast?_eq_getLast r.row hv.1
      exact ⟨_, h1⟩
    have hrev : r.row.reverse = dl :: r.row.reverse.tail := by
      have hh : r.row.reverse.head? = some dl := by
        rw [List.head?_reverse]
        exact hdl
      cases hrr : r.row.reverse with
      | nil =>
        rw [hrr] at hh
        exact absurd hh (by simp)
      | cons a as =>
        rw [hrr] at hh
        simp at hh
        simp [hh]
    have hdlmem : dl ∈ r.row := by
      have hm : dl ∈ r.row.reverse := by
        rw [hrev]
        simp
      simpa using hm
    have hdl9 : dl ≤ 9 := hv.2.1 dl hdlmem
    have hdl0 : dl ≠ 0 := by
      intro hc
      exact hz (hv.2.2 (by rw [hdl, hc]))
    have hc0 : (Nat.digitChar dl == '0') = false :=
      beq_eq_false_iff_ne.mpr (digitChar_ne_zeroChar dl (by omega) hdl9)
    have hcs : r.row.reverse.map Nat.digitChar =
        Nat.digitChar dl :: r.row.reverse.tail.map Nat.digitChar := by
      conv_lhs => rw [hrev]
      rfl
    rw [hcs]
    have hdrop : List.dropWhile (fun c => c == '0')
        (Nat.digitChar dl :: r.row.reverse.tail.map Nat.digitChar) =
        Nat.digitChar dl :: r.row.reverse.tail.map Nat.digitChar := by
      rw [List.dropWhile_cons]
      simp only [hc0]
      rw [if_neg (by simp)]
    rw [hdrop]
    rw [if_neg (by simp)]
    have hrevmap : (Nat.digitChar dl :: r.row.reverse.tail.map Nat.digitChar).reverse =
        r.row.map Nat.digitChar := by
      rw [← hcs, ← List.map_reverse, List.reverse_reverse]
    rw [hrevmap, fromCharsRev_map_digitChar r.row hv.2.1]

/-! ### Every public operation returns a valid row -/

theorem add_valid (x y : PlacesRow) (hx : ValidRow x.row) (hy : ValidRow y.row) :
    ValidRow (add x y).row := by
  rw [add_eq_canonical x y hx hy]
  exact valid_new_from_num_row _

theorem sub_valid (x y d : PlacesRow) (hx : ValidRow x.row) (hy : ValidRow y.row)
    (h : sub x y = some d) : ValidRow d.row := by
  obtain ⟨hnone, hsome⟩ := sub_eq_canonical x y hx hy
  by_cases hlt : valRow x.row < valRow y.row
  · rw [hnone.mpr hlt] at h
    exact absurd h (by simp)
  · have hs := hsome (by omega)
    rw [h] at hs
    have hd : d = new_from_num (valRow x.row - valRow y.row) := by
      exact (Option.some.injEq _ _).mp hs
    rw [hd]
    exact valid_new_from_num_row _

theorem mul_eq_canonical (x y : PlacesRow) (hx : ValidRow x.row) (hy : ValidRow y.row) :
    mul x y = new_from_num (valRow x.row * valRow y.row) := by
  show mulmul x.row y.row 1 = _
  rw [mulmul_eq_canonical x.row y.row 1 hx.2.1 hy.2.1 hx.1 hy.1 le_rfl]
  rw [pow_one, Nat.mul_comm]

theorem mul_valid (x y : PlacesRow) (hx : ValidRow x.row) (hy : ValidRow y.row) :
    ValidRow (mul x y).row := by
  rw [mul_eq_canonical x y hx hy]
  exact valid_new_from_num_row _

theorem pow_valid (x : PlacesRow) (p : Nat) (hx : ValidRow x.row) :
    ValidRow (pow x p).row := by
  unfold pow
  by_cases h0 : p = 0
  · rw [if_pos h0]
    show ValidRow [1]
    decide
  · rw [if_neg h0]
    by_cases h1 : p = 1
    · rw [if_pos h1]
      exact hx
    · rw [if_neg h1]
      rw [mulmul_eq_canonical x.row x.row (p - 1) hx.2.1 hx.2.1 hx.1 hx.1 (by omega)]
      exact valid_new_from_num_row _

theorem divrem_valid (n d q r : PlacesRow) (hn : ValidRow n.row) (hd : ValidRow d.row)
    (h : divrem n d = some (q, r)) : ValidRow q.row ∧ ValidRow r.row := by
  rw [divrem_eq] at h
  by_cases hz : d = zero
  · rw [if_pos hz] at h
    exact absurd h (by simp)
  · rw [if_neg hz] at h
    by_cases hL : rel n d = Rel.Lesser
    · rw [if_pos hL] at h
      simp only [Option.some.injEq, Prod.mk.injEq] at h
      obtain ⟨hq, hr⟩ := h
      rw [← hq, ← hr]
      exact ⟨by decide, hn⟩
    · rw [if_neg hL] at h
      by_cases hE : rel n d = Rel.Equal
      · rw [if_pos hE] at h
        simp only [Option.some.injEq, Prod.mk.injEq] at h
        obtain ⟨hq, hr⟩ := h
        rw [← hq, ← hr]
        exact ⟨by decide, by decide⟩
      · rw [if_neg hE] at h
        simp only [Option.some.injEq, Prod.mk.injEq] at h
        obtain ⟨hq, hr⟩ := h
        have hG : rel n d = Rel.Greater := by
          cases hrel : rel n d
          · rfl
          · exact absurd hrel hE
          · exact absurd hrel hL
        have hlen := rel_greater_len n d hG
        obtain ⟨hrem, k, hrat⟩ :=
          substraction_true_valid n.row d.row hn.2.1 hd.2.1 hn.1 hlen
        constructor
        · rw [← hq]
          show ValidRow (substraction n.row d.row true).2
          rw [hrat]
          exact valid_new_from_num_row k
        · rw [← hr]
          exact hrem

/-! ### Length of the accumulator after `addition` -/

theorem length_carryInto_le (s : List Nat) : ∀ t, (∀ d ∈ s, d ≤ 9) → t ≤ 1 →
    (carryInto s t).length ≤ s.length + 1 := by
  induction s with
  | nil =>
    intro t _ ht
    by_cases h0 : t = 0
    · rw [h0, carryInto_zero]
      simp
    · have h1 : t = 1 := by omega
      rw [h1, carryInto_one_nil]
      simp
  | cons x xs ih =>
    intro t hs ht
    by_cases h0 : t = 0
    · rw [h0, carryInto_zero]
      omega
    · rw [carryInto_cons x xs t h0]
      have hx9 : x ≤ 9 := hs x (by simp)
      have hc : (ones x t).2 ≤ 1 := ones_snd_le_one x t (by omega) ht
      have := ih (ones x t).2 (fun d hd => hs d (by simp [hd])) hc
      simp only [List.length_cons]
      omega

theorem length_addInto_le (a1 : List Nat) : ∀ (s : List Nat) (t : Nat),
    (∀ d ∈ a1, d ≤ 9) → (∀ d ∈ s, d ≤ 9) → t ≤ 1 →
    (addInto a1 s t).length ≤ max a1.length s.length + 1 := by
  induction a1 with
  | nil =>
    intro s t _ hs ht
    show (carryInto s t).length ≤ _
    have := length_carryInto_le s t hs ht
    omega
  | cons d ds ih =>
    intro s t h1 hs ht
    show ((ones (s.headD 0 + d) t).1 ::
      addInto ds s.tail (ones (s.headD 0 + d) t).2).length ≤ _
    have hhead : s.headD 0 ≤ 9 := by
      cases s with
      | nil => simp
      | cons a as => exact hs a (by simp)
    have hd9 : d ≤ 9 := h1 d (by simp)
    have hc : (ones (s.headD 0 + d) t).2 ≤ 1 :=
      ones_snd_le_one _ t (by omega) ht
    have htail : ∀ x ∈ s.tail, x ≤ 9 := fun x hx => hs x (List.mem_of_mem_tail hx)
    have hrec := ih s.tail (ones (s.headD 0 + d) t).2
      (fun x hx => h1 x (by simp [hx])) htail hc
    have hlen : s.tail.length = s.length - 1 := by
      cases s <;> simp
    simp only [List.length_cons]
    omega

/-- Corrected length bound for `addition` in self-addend mode: the addend is
written starting at `offset`, so the offset extends the addend side of the
maximum, not the accumulator side. -/
theorem addition_none_length (a1 s : List Nat) (off : Nat)
    (h1 : ∀ d ∈ a1, d ≤ 9) (hs : ∀ d ∈ s, d ≤ 9) :
    (addition a1 none s off).length ≤ max (a1.length + off) s.length + 1 := by
  rw [addition_none_eq]
  have hdrop : ∀ x ∈ s.drop off, x ≤ 9 := fun x hx => hs x (List.mem_of_mem_drop hx)
  have hb := length_addInto_le a1 (s.drop off) 0 h1 hdrop (by omega)
  rw [List.length_append, List.length_take, List.length_drop] at *
  omega

/-- Length bound for `addition` in two-addend mode as the crate calls it. -/
theorem addition_some_length (a1 a2 : List Nat) (h1 : ∀ d ∈ a1, d ≤ 9)
    (h2 : ∀ d ∈ a2, d ≤ 9) (hlen : a2.length ≤ a1.length) :
    (addition a1 (some a2) [] 0).length ≤ a1.length + 1 := by
  rw [addition_some_eq]
  rcases addTwo_length a1 a2 0 h1 h2 (by omega) hlen with h | ⟨h, _⟩ <;> omega

/-! ### Bounds on the instrumented carries and totals -/

theorem getD_le_nine (l : List Nat) (h : ∀ d ∈ l, d ≤ 9) : ∀ i, l.getD i 0 ≤ 9 := by
  induction l with
  | nil =>
    intro i
    simp [List.getD]
  | cons a as ih =>
    intro i
    cases i with
    | zero => simpa using h a (by simp)
    | succ j =>
      have := ih (fun d hd => h d (by simp [hd])) j
      simpa using this

theorem additionCarryCalls_zero (snapshot : List Nat) (snapLen inx : Nat) :
    additionCarryCalls snapshot snapLen inx 0 = [] := by
  rw [additionCarryCalls.eq_def]
  simp

theorem additionCarryCalls_succ (snapshot : List Nat) (snapLen inx t : Nat) (h : t ≠ 0) :
    additionCarryCalls snapshot snapLen inx t =
      ((if inx < snapLen then snapshot.getD inx 0 else 0), t) ::
        additionCarryCalls snapshot snapLen (inx + 1)
          (ones (if inx < snapLen then snapshot.getD inx 0 else 0) t).2 := by
  rw [additionCarryCalls.eq_def]
  rw [dif_neg h]

theorem additionCarryCalls_bound (snapshot : List Nat) (hsn : ∀ d ∈ snapshot, d ≤ 9)
    (snapLen : Nat) : ∀ (k inx t : Nat), snapLen - inx = k → t ≤ 1 →
    ∀ p ∈ additionCarryCalls snapshot snapLen inx t, p.1 ≤ 9 ∧ p.2 ≤ 1 := by
  intro k
  induction k with
  | zero =>
    intro inx t hk ht p hp
    by_cases h0 : t = 0
    · rw [h0, additionCarryCalls_zero] at hp
      exact absurd hp (by simp)
    · rw [additionCarryCalls_succ _ _ _ _ h0] at hp
      have hnum : (if inx < snapLen then snapshot.getD inx 0 else 0) = 0 := by
        rw [if_neg (by omega)]
      rw [hnum] at hp
      have ht2 : (ones 0 t).2 = 0 := by
        rw [ones_eq]
        show (0 + t) / 10 = 0
        omega
      rw [ht2, additionCarryCalls_zero] at hp
      have hp2 : p = (0, t) := by simpa using hp
      rw [hp2]
      exact ⟨by omega, ht⟩
  | succ k ih =>
    intro inx t hk ht p hp
    by_cases h0 : t = 0
    · rw [h0, additionCarryCalls_zero] at hp
      exact absurd hp (by simp)
    · rw [additionCarryCalls_succ _ _ _ _ h0] at hp
      have hin : inx < snapLen := by omega
      have hnum : (if inx < snapLen then snapshot.getD inx 0 else 0) ≤ 9 := by
        rw [if_pos hin]
        exact getD_le_nine snapshot hsn inx
      rcases List.mem_cons.mp hp with hp1 | hp1
      · rw [hp1]
        exact ⟨hnum, ht⟩
      · refine ih (inx + 1) _ (by omega) ?_ p hp1
        exact ones_snd_le_one _ t (by omega) ht

theorem additionMainCalls_bound (addend1 : List Nat) :
    ∀ (snapshot : List Nat) (snapLen inx t : Nat),
    (∀ d ∈ addend1, d ≤ 9) → (∀ d ∈ snapshot, d ≤ 9) → t ≤ 1 →
    ∀ p ∈ additionMainCalls addend1 snapshot snapLen inx t, p.1 ≤ 18 ∧ p.2 ≤ 1 := by
  induction addend1 with
  | nil =>
    intro snapshot snapLen inx t _ hsn ht p hp
    have := additionCarryCalls_bound snapshot hsn snapLen (snapLen - inx) inx t rfl ht p hp
    exact ⟨by omega, this.2⟩
  | cons a as ih =>
    intro snapshot snapLen inx t h1 hsn ht p hp
    have heq : additionMainCalls (a :: as) snapshot snapLen inx t =
        ((if inx < snapLen then snapshot.getD inx 0 else 0) + a, t) ::
          additionMainCalls as snapshot snapLen (inx + 1)
            (ones ((if inx < snapLen then snapshot.getD inx 0 else 0) + a) t).2 := rfl
    rw [heq] at hp
    have hnum : (if inx < snapLen then snapshot.getD inx 0 else 0) ≤ 9 := by
      by_cases hin : inx < snapLen
      · rw [if_pos hin]
        exact getD_le_nine snapshot hsn inx
      · rw [if_neg hin]
        omega
    have ha9 : a ≤ 9 := h1 a (by simp)
    rcases List.mem_cons.mp hp with hp1 | hp1
    · rw [hp1]
      exact ⟨by omega, ht⟩
    · refine ih snapshot snapLen (inx + 1) _ (fun d hd => h1 d (by simp [hd])) hsn ?_ p hp1
      exact ones_snd_le_one _ t (by omega) ht

theorem additionCalls_bound (a1 : List Nat) (a2 : Option (List Nat)) (sum : List Nat)
    (off : Nat) (h1 : ∀ d ∈ a1, d ≤ 9) (h2 : ∀ r ∈ a2, ∀ d ∈ r, d ≤ 9)
    (hs : ∀ d ∈ sum, d ≤ 9) :
    ∀ p ∈ additionCalls a1 a2 sum off, p.1 ≤ 18 ∧ p.2 ≤ 1 := by
  cases a2 with
  | none =>
    exact additionMainCalls_bound a1 sum sum.length off 0 h1 hs (by omega)
  | some r =>
    exact additionMainCalls_bound a1 r r.length off 0 h1 (h2 r (by simp)) (by omega)

theorem productLoopCalls_bound (mpler : Nat) (hm : mpler ≤ 9) (mcand : List Nat) :
    ∀ t, (∀ d ∈ mcand, d ≤ 9) → t ≤ 8 →
    ∀ p ∈ productLoopCalls mpler mcand t, p.1 ≤ 81 ∧ p.2 ≤ 8 := by
  induction mcand with
  | nil =>
    intro t _ _ p hp
    exact absurd hp (by simp [productLoopCalls])
  | cons num rest ih =>
    intro t hd ht p hp
    have heq : productLoopCalls mpler (num :: rest) t =
        (mpler * num, t) :: productLoopCalls mpler rest (ones (mpler * num) t).2 := rfl
    rw [heq] at hp
    have hnum : num ≤ 9 := hd num (by simp)
    have hprod : mpler * num ≤ 81 := by
      calc mpler * num ≤ 9 * 9 := Nat.mul_le_mul hm hnum
        _ = 81 := by norm_num
    rcases List.mem_cons.mp hp with hp1 | hp1
    · rw [hp1]
      exact ⟨hprod, ht⟩
    · refine ih _ (fun d hdm => hd d (by simp [hdm])) ?_ p hp1
      rw [ones_snd]
      omega

theorem corrLoopCalls_bound (drow : List Nat) : ∀ (srow : List Nat) (t : Nat),
    (∀ d ∈ drow, d ≤ 9) → (∀ d ∈ srow, d ≤ 9) → t ≤ 1 →
    ∀ p ∈ corrLoopCalls drow srow t, p.1 ≤ 18 ∧ p.2 ≤ 1 := by
  induction drow with
  | nil =>
    intro srow t _ _ _ p hp
    cases srow with
    | nil => exact absurd hp (by simp [corrLoopCalls])
    | cons sn sr => exact absurd hp (by simp [corrLoopCalls])
  | cons dn dr ih =>
    intro srow t hd hs ht p hp
    cases srow with
    | nil => exact absurd hp (by simp [corrLoopCalls])
    | cons sn sr =>
      have heq : corrLoopCalls (dn :: dr) (sn :: sr) t =
          (dn + sn, t) :: corrLoopCalls dr sr (ones (dn + sn) t).2 := rfl
      rw [heq] at hp
      have hdn : dn ≤ 9 := hd dn (by simp)
      have hsn : sn ≤ 9 := hs sn (by simp)
      rcases List.mem_cons.mp hp with hp1 | hp1
      · rw [hp1]
        exact ⟨by omega, ht⟩
      · refine ih sr _ (fun d hdm => hd d (by simp [hdm]))
          (fun d hdm => hs d (by simp [hdm])) ?_ p hp1
        exact ones_snd_le_one _ t (by omega) ht

theorem subPassSteps_bound (populated : Bool) (m : List Nat) : ∀ (s : List Nat) (t : Nat),
    (∀ d ∈ m, d ≤ 9) → (∀ d ∈ s, d ≤ 9) → t ≤ 1 →
    ∀ p ∈ subPassSteps populated m s t,
      p.1 ≤ 9 ∧ p.2.1 ≤ 9 ∧ p.2.2 ≤ 1 ∧ p.2.1 + p.2.2 ≤ p.1 + 10 := by
  induction m with
  | nil =>
    intro s t _ _ _ p hp
    exact absurd hp (by simp [subPassSteps])
  | cons mn mr ih =>
    intro s t hm hs ht p hp
    have heq : subPassSteps populated (mn :: mr) s t =
        if s.isEmpty && t == 0 && populated then []
        else (mn, s.headD 0, t) :: subPassSteps populated mr s.tail
          (if mn < s.headD 0 + t then ((mn + 10 - (s.headD 0 + t), 1) : Nat × Nat)
            else (mn - (s.headD 0 + t), 0)).2 := rfl
    rw [heq] at hp
    by_cases hbrk : (s.isEmpty && t == 0 && populated) = true
    · rw [if_pos hbrk] at hp
      exact absurd hp (by simp)
    · rw [if_neg hbrk] at hp
      have hmn : mn ≤ 9 := hm mn (by simp)
      have hhd : s.headD 0 ≤ 9 := by
        cases s with
        | nil => simp
        | cons a as => exact hs a (by simp)
      rcases List.mem_cons.mp hp with hp1 | hp1
      · rw [hp1]
        refine ⟨hmn, hhd, ht, ?_⟩
        show s.headD 0 + t ≤ mn + 10
        omega
      · have htail : ∀ d ∈ s.tail, d ≤ 9 := fun d hd => hs d (List.mem_of_mem_tail hd)
        refine ih s.tail _ (fun d hd => hm d (by simp [hd])) htail ?_ p hp1
        by_cases hlt : mn < s.headD 0 + t
        · rw [if_pos hlt]
        · rw [if_neg hlt]
          omega

/-! ### The takeover of every pass starts at zero -/

theorem additionCalls_head (a1 : List Nat) (a2 : Option (List Nat)) (sum : List Nat)
    (off : Nat) : ∀ p, (additionCalls a1 a2 sum off).head? = some p → p.2 = 0 := by
  intro p hp
  cases a2 with
  | none =>
    cases a1 with
    | nil =>
      have heq : additionCalls [] none sum off = additionCarryCalls sum sum.length off 0 := rfl
      rw [heq, additionCarryCalls_zero] at hp
      exact absurd hp (by simp)
    | cons a as =>
      have heq : additionCalls (a :: as) none sum off =
          ((if off < sum.length then sum.getD off 0 else 0) + a, 0) ::
            additionMainCalls as sum sum.length (off + 1)
              (ones ((if off < sum.length then sum.getD off 0 else 0) + a) 0).2 := rfl
      rw [heq] at hp
      have h1 : ((if off < sum.length then sum.getD off 0 else 0) + a, 0) = p := by
        simpa using hp
      rw [← h1]
  | some r =>
    cases a1 with
    | nil =>
      have heq : additionCalls [] (some r) sum off = additionCarryCalls r r.length off 0 := rfl
      rw [heq, additionCarryCalls_zero] at hp
      exact absurd hp (by simp)
    | cons a as =>
      have heq : additionCalls (a :: as) (some r) sum off =
          ((if off < r.length then r.getD off 0 else 0) + a, 0) ::
            additionMainCalls as r r.length (off + 1)
              (ones ((if off < r.length then r.getD off 0 else 0) + a) 0).2 := rfl
      rw [heq] at hp
      have h1 : ((if off < r.length then r.getD off 0 else 0) + a, 0) = p := by
        simpa using hp
      rw [← h1]

theorem productCalls_head (mpler : Nat) (mcand : List Nat) :
    ∀ p, (productCalls mpler mcand).head? = some p → p.2 = 0 := by
  intro p hp
  cases mcand with
  | nil => exact absurd hp (by simp [productCalls, productLoopCalls])
  | cons num rest =>
    have h1 : (mpler * num, 0) = p := by
      simpa [productCalls, productLoopCalls] using hp
    rw [← h1]

theorem subPassSteps_head (populated : Bool) (m s : List Nat) :
    ∀ p, (subPassSteps populated m s 0).head? = some p → p.2.2 = 0 := by
  intro p hp
  cases m with
  | nil => exact absurd hp (by simp [subPassSteps])
  | cons mn mr =>
    have heq : subPassSteps populated (mn :: mr) s 0 =
        if s.isEmpty && (0:Nat) == 0 && populated then []
        else (mn, s.headD 0, 0) :: subPassSteps populated mr s.tail
          (if mn < s.headD 0 + 0 then ((mn + 10 - (s.headD 0 + 0), 1) : Nat × Nat)
            else (mn - (s.headD 0 + 0), 0)).2 := rfl
    rw [heq] at hp
    by_cases hbrk : (s.isEmpty && (0:Nat) == 0 && populated) = true
    · rw [if_pos hbrk] at hp
      exact absurd hp (by simp)
    · rw [if_neg hbrk] at hp
      have h1 : (mn, s.headD 0, 0) = p := by simpa using hp
      rw [← h1]

/-! ### Claim theorems -/

/-- Claim C1 (code bug, counterexample evaluation): the divisor row 91 is
not zero, yet on dividend 181 `divrem` returns quotient 1 and remainder 0,
and `add(mul(divisor, quotient), remainder)` evaluates to 91, not to the
dividend 181 (the true remainder 90 is destroyed when the overrun
correction truncates the remainder's own trailing 9 together with the
padding nines). -/
theorem divrem_reconstruction_bug :
    (⟨[1, 9]⟩ : PlacesRow) ≠ zero ∧
    divrem ⟨[1, 8, 1]⟩ ⟨[1, 9]⟩ = some (⟨[1]⟩, ⟨[0]⟩) ∧
    rel ⟨[0]⟩ ⟨[1, 9]⟩ = Rel.Lesser ∧
    add (mul ⟨[1, 9]⟩ ⟨[1]⟩) ⟨[0]⟩ = ⟨[1, 9]⟩ ∧
    (⟨[1, 9]⟩ : PlacesRow) ≠ ⟨[1, 8, 1]⟩ := by
  refine ⟨by decide, ?_, by decide, ?_, by decide⟩
  · have hrat : addition [1] none [0] 0 = [1] := by
      have h0 : ([0] : List Nat) = new_from_num_row 0 := new_from_num_row_zero.symm
      rw [h0, increment_canon, new_from_num_row_one]
    have hsub : substraction [1, 8, 1] [1, 9] true = ([0], [1]) := by
      rw [substraction_eq, hrat]
      decide
    rw [divrem_eq]
    rw [if_neg (by decide), if_neg (by decide), if_neg (by decide)]
    show (some (⟨(substraction [1, 8, 1] [1, 9] true).2⟩,
      ⟨(substraction [1, 8, 1] [1, 9] true).1⟩) : Option (PlacesRow × PlacesRow)) = _
    rw [hsub]
  · have hv19 : ValidRow ([1, 9] : List Nat) := by decide
    have hv1 : ValidRow ([1] : List Nat) := by decide
    have hv0 : ValidRow ([0] : List Nat) := by decide
    have h91 : new_from_num_row 91 = [1, 9] := by
      have h1 := canonical_of_valid [1, 9] hv19
      have h2 : valRow [1, 9] = 91 := by norm_num [valRow]
      rw [h2] at h1
      exact h1
    have hmul : mul ⟨[1, 9]⟩ ⟨[1]⟩ = new_from_num 91 := by
      rw [mul_eq_canonical ⟨[1, 9]⟩ ⟨[1]⟩ hv19 hv1]
      norm_num [valRow]
    have hadd : add (new_from_num 91) ⟨[0]⟩ = new_from_num 91 := by
      rw [add_eq_canonical (new_from_num 91) ⟨[0]⟩ (valid_new_from_num_row 91) hv0]
      have hval : valRow (new_from_num 91).row + valRow (⟨[0]⟩ : PlacesRow).row = 91 := by
        show valRow (new_from_num_row 91) + valRow [0] = 91
        rw [valRow_new_from_num_row]
        norm_num [valRow]
      rw [hval]
    rw [hmul, hadd]
    show (⟨new_from_num_row 91⟩ : PlacesRow) = ⟨[1, 9]⟩
    rw [h91]

/-- Claim C2: `sub(a, b)` is `None` exactly when a is numerically less
than b, and every returned difference d satisfies `add(d, b) = a` (for
rows that respect the constructors' digit invariant). -/
theorem sub_none_iff_and_add_back (a b : PlacesRow)
    (ha : ValidRow a.row) (hb : ValidRow b.row) :
    (sub a b = none ↔ valRow a.row < valRow b.row) ∧
    (∀ d, sub a b = some d → add d b = a) := by
  obtain ⟨hnone, hsome⟩ := sub_eq_canonical a b ha hb
  refine ⟨hnone, ?_⟩
  intro d hd
  by_cases hlt : valRow a.row < valRow b.row
  · rw [hnone.mpr hlt] at hd
    exact absurd hd (by simp)
  · have hs := hsome (by omega)
    rw [hd] at hs
    have hdd : d = new_from_num (valRow a.row - valRow b.row) :=
      (Option.some.injEq _ _).mp hs
    rw [hdd]
    rw [add_eq_canonical (new_from_num (valRow a.row - valRow b.row)) b
      (valid_new_from_num_row _) hb]
    have hval : valRow (new_from_num (valRow a.row - valRow b.row)).row +
        valRow b.row = valRow a.row := by
      show valRow (new_from_num_row (valRow a.row - valRow b.row)) + valRow b.row = _
      rw [valRow_new_from_num_row]
      omega
    rw [hval]
    have hcan := canonical_of_valid a.row ha
    show (⟨new_from_num_row (valRow a.row)⟩ : PlacesRow) = a
    exact congrArg PlacesRow.mk hcan

/-- Witness for claim C2 at a = 3, b = 1: sub gives the difference 2 and
add reconstructs 3. -/
theorem sub_none_iff_and_add_back_witness :
    (sub ⟨[3]⟩ ⟨[1]⟩ = none ↔ valRow [3] < valRow [1]) ∧
    add ⟨[2]⟩ ⟨[1]⟩ = ⟨[3]⟩ := by
  have h := sub_none_iff_and_add_back ⟨[3]⟩ ⟨[1]⟩ (by decide) (by decide)
  exact ⟨h.1, h.2 ⟨[2]⟩ (by decide)⟩

/-- Claim C3: `divrem` is `None` exactly on a zero divisor; for a non-zero
divisor the comparator shortcuts return (zero, dividend) when the dividend
is lesser and ([1], zero) when equal, and otherwise the result is exactly
the remainder-loop run of `substraction`. -/
theorem divrem_shortcuts (n d : PlacesRow) :
    (divrem n d = none ↔ d = zero) ∧
    (d ≠ zero → rel n d = Rel.Lesser → divrem n d = some (zero, n)) ∧
    (d ≠ zero → rel n d = Rel.Equal → divrem n d = some (⟨[1]⟩, zero)) ∧
    (d ≠ zero → rel n d = Rel.Greater → divrem n d =
      some (⟨(substraction n.row d.row true).2⟩, ⟨(substraction n.row d.row true).1⟩)) := by
  refine ⟨⟨?_, ?_⟩, ?_, ?_, ?_⟩
  · intro h
    by_contra hz
    rw [divrem_eq, if_neg hz] at h
    by_cases hL : rel n d = Rel.Lesser
    · rw [if_pos hL] at h
      exact absurd h (by simp)
    · rw [if_neg hL] at h
      by_cases hE : rel n d = Rel.Equal
      · rw [if_pos hE] at h
        exact absurd h (by simp)
      · rw [if_neg hE] at h
        exact absurd h (by simp)
  · intro h
    rw [divrem_eq, if_pos h]
  · intro hz hL
    rw [divrem_eq, if_neg hz, if_pos hL]
  · intro hz hE
    rw [divrem_eq, if_neg hz, if_neg (by rw [hE]; simp), if_pos hE]
  · intro hz hG
    rw [divrem_eq, if_neg hz, if_neg (by rw [hG]; simp), if_neg (by rw [hG]; simp)]

/-- Witness for claim C3 at dividend 2, divisor 3: the lesser shortcut. -/
theorem divrem_shortcuts_witness : divrem ⟨[2]⟩ ⟨[3]⟩ = some (zero, ⟨[2]⟩) :=
  (divrem_shortcuts ⟨[2]⟩ ⟨[3]⟩).2.1 (by decide) (by decide)

/-- Claim C4: every successful constructor output and every row returned by
an arithmetic operation is a valid row: non-empty, all places decimal
digits, and no most-significant zero except for the row `[0]` itself. -/
theorem outputs_valid :
    (∀ v r0, new_from_vec v = .ok r0 → ValidRow r0.row) ∧
    (∀ n, ValidRow (new_from_num n).row) ∧
    (∀ s r0, new_from_str s = .ok r0 → ValidRow r0.row) ∧
    ValidRow zero.row ∧
    (∀ x y, ValidRow x.row → ValidRow y.row → ValidRow (add x y).row) ∧
    (∀ x y d, ValidRow x.row → ValidRow y.row → sub x y = some d → ValidRow d.row) ∧
    (∀ x y, ValidRow x.row → ValidRow y.row → ValidRow (mul x y).row) ∧
    (∀ x p, ValidRow x.row → ValidRow (pow x p).row) ∧
    (∀ x y q r, ValidRow x.row → ValidRow y.row → divrem x y = some (q, r) →
      ValidRow q.row ∧ ValidRow r.row) :=
  ⟨new_from_vec_valid, fun n => valid_new_from_num_row n, new_from_str_valid,
    by decide, add_valid, sub_valid, mul_valid, pow_valid, divrem_valid⟩

/-- Witness for claim C4: the sum of 99 and 1 is a valid row. -/
theorem outputs_valid_witness : ValidRow (add ⟨[9, 9]⟩ ⟨[1]⟩).row :=
  outputs_valid.2.2.2.2.1 ⟨[9, 9]⟩ ⟨[1]⟩ (by decide) (by decide)

/-- Claim C5, counterexample: addend length 4 written at offset 2 into an
accumulator of length 2 yields a row of length 6, above the claimed bound
max(len addend, len existing + offset) + 1 = 5. -/
theorem addition_length_counterexample :
    (addition [1, 1, 1, 1] none [1, 1] 2).length = 6 ∧
    ¬((addition [1, 1, 1, 1] none [1, 1] 2).length ≤
        max ([1, 1, 1, 1] : List Nat).length (([1, 1] : List Nat).length + 2) + 1) := by
  have h1 : addInto [1, 1, 1, 1] (([1, 1] : List Nat).drop 2) 0 =
      1 :: 1 :: 1 :: 1 :: carryInto [] 0 := rfl
  rw [addition_none_eq, h1, carryInto_zero]
  exact ⟨by decide, by decide⟩

/-- Claim C5, amended: the positional offset extends the addend's side of
the maximum — in self-addend mode the result length is at most
max(len addend + offset, len existing) + 1, and in the two-addend mode the
crate uses (fresh accumulator, offset 0, second addend not longer) it is at
most len addend + 1. -/
theorem addition_length_amended :
    (∀ a1 s off, (∀ d ∈ a1, d ≤ 9) → (∀ d ∈ s, d ≤ 9) →
      (addition a1 none s off).length ≤ max (a1.length + off) s.length + 1) ∧
    (∀ a1 a2, (∀ d ∈ a1, d ≤ 9) → (∀ d ∈ a2, d ≤ 9) → a2.length ≤ a1.length →
      (addition a1 (some a2) [] 0).length ≤ a1.length + 1) :=
  ⟨addition_none_length, addition_some_length⟩

/-- Witness for the amended claim C5 at addend [5], accumulator [7],
offset 1. -/
theorem addition_length_amended_witness :
    (addition [5] none [7] 1).length ≤ max (([5] : List Nat).length + 1)
      ([7] : List Nat).length + 1 :=
  addition_length_amended.1 [5] [7] 1 (by decide) (by decide)

/-- Claim C6: every takeover threaded through a single pass is 0 or 1 in
column addition, in a subtraction pass and in the overrun-correction pass,
and at most 8 in single-digit multiplication; and each pass enters with
takeover 0, so no carry survives from one call to the next. -/
theorem carry_bounded :
    (∀ a1 a2 sum off, (∀ d ∈ a1, d ≤ 9) → (∀ r ∈ a2, ∀ d ∈ r, d ≤ 9) →
      (∀ d ∈ sum, d ≤ 9) → ∀ p ∈ additionCalls a1 a2 sum off, p.2 ≤ 1) ∧
    (∀ pop m s, (∀ d ∈ m, d ≤ 9) → (∀ d ∈ s, d ≤ 9) →
      ∀ p ∈ subPassSteps pop m s 0, p.2.2 ≤ 1) ∧
    (∀ dr s, (∀ d ∈ dr, d ≤ 9) → (∀ d ∈ s, d ≤ 9) →
      ∀ p ∈ corrLoopCalls dr s 0, p.2 ≤ 1) ∧
    (∀ mp mc, mp ≤ 9 → (∀ d ∈ mc, d ≤ 9) → ∀ p ∈ productCalls mp mc, p.2 ≤ 8) ∧
    (∀ a1 a2 sum off p, (additionCalls a1 a2 sum off).head? = some p → p.2 = 0) ∧
    (∀ mp mc p, (productCalls mp mc).head? = some p → p.2 = 0) ∧
    (∀ pop m s p, (subPassSteps pop m s 0).head? = some p → p.2.2 = 0) := by
  refine ⟨?_, ?_, ?_, ?_, additionCalls_head, productCalls_head, subPassSteps_head⟩
  · intro a1 a2 sum off h1 h2 hs p hp
    exact (additionCalls_bound a1 a2 sum off h1 h2 hs p hp).2
  · intro pop m s hm hs p hp
    exact (subPassSteps_bound pop m s 0 hm hs (by omega) p hp).2.2.1
  · intro dr s hd hs p hp
    exact (corrLoopCalls_bound dr s 0 hd hs (by omega) p hp).2
  · intro mp mc hmp hmc p hp
    exact (productLoopCalls_bound mp hmp mc 0 hmc (by omega) p hp).2

/-- Witness for claim C6: the borrow entering the second step of the pass
subtracting 9 from 35 is 1, within the bound. -/
theorem carry_bounded_witness :
    ((3:Nat), (0:Nat), (1:Nat)) ∈ subPassSteps false [5, 3] [9] 0 ∧
    ((3:Nat), (0:Nat), (1:Nat)).2.2 ≤ 1 :=
  ⟨by decide, carry_bounded.2.1 false [5, 3] [9] (by decide) (by decide)
    ((3:Nat), (0:Nat), (1:Nat)) (by decide)⟩

/-- Claim C7: exponent 0 yields the row [1] (also on the zero row) and
exponent 1 returns the base unchanged, both decided before the engine. -/
theorem pow_shortcuts (x : PlacesRow) :
    pow x 0 = ⟨[1]⟩ ∧ pow x 1 = x ∧ pow zero 0 = ⟨[1]⟩ :=
  ⟨rfl, rfl, rfl⟩

/-- Claim C8: addition of valid rows is commutative and the zero row is a
right identity. -/
theorem add_comm_and_identity (a b : PlacesRow)
    (ha : ValidRow a.row) (hb : ValidRow b.row) :
    add a b = add b a ∧ add a zero = a := by
  constructor
  · rw [add_eq_canonical a b ha hb, add_eq_canonical b a hb ha, Nat.add_comm]
  · rw [add_eq_canonical a zero ha (by decide)]
    have hval : valRow a.row + valRow zero.row = valRow a.row := by
      show valRow a.row + valRow [0] = valRow a.row
      norm_num [valRow]
    rw [hval]
    have hcan := canonical_of_valid a.row ha
    show (⟨new_from_num_row (valRow a.row)⟩ : PlacesRow) = a
    exact congrArg PlacesRow.mk hcan

/-- Witness for claim C8 at a = 4 and b = 5. -/
theorem add_comm_and_identity_witness :
    add ⟨[4]⟩ ⟨[5]⟩ = add ⟨[5]⟩ ⟨[4]⟩ ∧ add ⟨[4]⟩ zero = ⟨[4]⟩ :=
  add_comm_and_identity ⟨[4]⟩ ⟨[5]⟩ (by decide) (by decide)

/-- Claim C9: rendering `new_from_num n` gives exactly the decimal text of
n, and parsing the rendering of any valid row reconstructs that row. -/
theorem decimal_roundtrips :
    (∀ n, to_number (new_from_num n).row = some (decRender n)) ∧
    (∀ r, ValidRow r.row → ∀ cs, to_number r.row = some cs →
      new_from_str cs = .ok r) := by
  refine ⟨to_number_new_from_num, ?_⟩
  intro r hv cs hcs
  have h1 := to_number_digits r.row hv.2.1
  rw [h1] at hcs
  have h2 : r.row.reverse.map Nat.digitChar = cs :=
    (Option.some.injEq _ _).mp hcs
  rw [← h2]
  exact new_from_str_roundtrip r hv

/-- Witness for claim C9: parsing back the rendering of the row 7. -/
theorem decimal_roundtrips_witness : new_from_str ['7'] = .ok ⟨[7]⟩ :=
  decimal_roundtrips.2 ⟨[7]⟩ (by decide) ['7'] (by decide)

/-- Claim C10: on digit rows every per-position total handed to the carry
primitive stays at most 19 in addition contexts and 89 in single-digit
multiplication, every subtraction step's subtrahend-plus-borrow is at most
the minuend plus 10 (so the u8 subtraction after the borrow adjustment
cannot underflow), and `to_number` never reaches its panic arm. -/
theorem no_panic_bounds :
    (∀ a1 a2 sum off, (∀ d ∈ a1, d ≤ 9) → (∀ r ∈ a2, ∀ d ∈ r, d ≤ 9) →
      (∀ d ∈ sum, d ≤ 9) → ∀ p ∈ additionCalls a1 a2 sum off, p.1 + p.2 ≤ 19) ∧
    (∀ mp mc, mp ≤ 9 → (∀ d ∈ mc, d ≤ 9) →
      ∀ p ∈ productCalls mp mc, p.1 + p.2 ≤ 89) ∧
    (∀ pop m s, (∀ d ∈ m, d ≤ 9) → (∀ d ∈ s, d ≤ 9) →
      ∀ p ∈ subPassSteps pop m s 0, p.2.1 + p.2.2 ≤ p.1 + 10) ∧
    (∀ dr s, (∀ d ∈ dr, d ≤ 9) → (∀ d ∈ s, d ≤ 9) →
      ∀ p ∈ corrLoopCalls dr s 0, p.1 + p.2 ≤ 19) ∧
    (∀ row, (∀ d ∈ row, d ≤ 9) → (to_number row).isSome = true) := by
  refine ⟨?_, ?_, ?_, ?_, ?_⟩
  · intro a1 a2 sum off h1 h2 hs p hp
    have := additionCalls_bound a1 a2 sum off h1 h2 hs p hp
    omega
  · intro mp mc hmp hmc p hp
    have := productLoopCalls_bound mp hmp mc 0 hmc (by omega) p hp
    omega
  · intro pop m s hm hs p hp
    exact (subPassSteps_bound pop m s 0 hm hs (by omega) p hp).2.2.2
  · intro dr s hd hs p hp
    have := corrLoopCalls_bound dr s 0 hd hs (by omega) p hp
    omega
  · intro row h
    rw [to_number_digits row h]
    rfl

/-- Witness for claim C10: `to_number` succeeds on the digit row [5, 2]. -/
theorem no_panic_bounds_witness : (to_number [5, 2]).isSome = true :=
  no_panic_bounds.2.2.2.2 [5, 2] (by decide)

end BigNum
